import Mathlib

set_option linter.unusedVariables false

/-!
Shallow embedding of `src/order_book.py`: a single-instrument limit order
book with price-time priority matching.

Prices are modelled as rationals (the source uses floats only for
comparison, `max`/`min` and as dictionary keys, never for arithmetic, so
any archimedean linear order is a faithful model), quantities as integers
(Python ints; the source clamps with `max(0, ...)`), and the two price
indices as insertion-ordered association lists, mirroring Python
`defaultdict(list)` dictionaries.
-/

/-- The `Type` enum of the source (`BUY = 0`, `SELL = 1`); named `OType`
because `Type` is reserved in Lean. -/
inductive OType where
  | BUY : OType
  | SELL : OType
deriving DecidableEq, Repr

/-- The `Order` entity (source lines 120-130): side, limit price, remaining
quantity, plus the book-assigned timestamp and order id (`None` until the
book stamps them).  The opaque metadata fields (underlying, instrument,
product, status) are carried through unmodified by the book and are
omitted. -/
structure Order where
  type : OType
  price : ℚ
  quantity : ℤ
  timestamp : Option ℕ := none
  order_id : Option ℕ := none
deriving DecidableEq, Repr

/-- The `Trade` entity (source lines 137-143): an immutable execution
record. -/
structure Trade where
  type : OType
  price : ℚ
  quantity : ℤ
  incoming_order_id : Option ℕ
  book_order_id : Option ℕ
deriving DecidableEq, Repr

/-- One side index: a Python dict mapping price to the list of orders
resting at that price, insertion-ordered like a Python dictionary. -/
abbrev Dict := List (ℚ × List Order)

/-- The `OrderBook` state (source lines 17-30): the two side indices, the
trades queue (modelled as the list of trades put so far) and the order-id
counter.  The `bid_prices`/`bid_quantity`/... caches only feed
`book_summary`/`show_book` and the `unprocessed_orders` queue is the
external driver; none of them affect matching. -/
structure OrderBook where
  bids : Dict
  offers : Dict
  trades : List Trade
  order_id : ℕ
deriving DecidableEq, Repr

/-- Fresh book, `OrderBook()`. -/
def initBook : OrderBook := { bids := [], offers := [], trades := [], order_id := 0 }

/-- The keys of a side index, in insertion order (`d.keys()`). -/
def keys (d : Dict) : List ℚ := d.map Prod.fst

/-- Dictionary lookup, `d[p]` when the key is present. -/
def getLevel : Dict → ℚ → Option (List Order)
  | [], _ => none
  | (q, l) :: rest, p => if p = q then some l else getLevel rest p

/-- Level append, `d[p].append(o)` on a `defaultdict(list)`: append to the
level at `p`, creating the level at the tail of the dictionary if absent. -/
def dictAppend : Dict → ℚ → Order → Dict
  | [], p, o => [(p, [o])]
  | (q, l) :: rest, p, o =>
    if p = q then (q, l ++ [o]) :: rest else (q, l) :: dictAppend rest p o

/-- Dict assignment `d[p] = l`: replace the level at `p` in place, creating
it at the tail if absent. -/
def dictSet : Dict → ℚ → List Order → Dict
  | [], p, l => [(p, l)]
  | (q, l₀) :: rest, p, l =>
    if p = q then (q, l) :: rest else (q, l₀) :: dictSet rest p l

/-- Key removal, `d.pop(p)`: drop the entry at key `p`. -/
def dictPop : Dict → ℚ → Dict
  | [], _ => []
  | (q, l) :: rest, p => if p = q then rest else (q, l) :: dictPop rest p

/-- Property `OrderBook.max_bid` (source lines 36-41): the maximum bid-side key, or
`0.` when the bid side is empty. -/
def max_bid (b : OrderBook) : ℚ := ((keys b.bids).maximum).unbot' 0

/-- Property `OrderBook.min_offer` (source lines 43-48): the minimum offer-side key,
or `float('inf')` (modelled as `⊤`) when the offer side is empty. -/
def min_offer (b : OrderBook) : WithTop ℚ := (keys b.offers).minimum

/-- Ascending key sort, `sorted(keys)`. -/
def sortAsc (l : List ℚ) : List ℚ := List.insertionSort (· ≤ ·) l

/-- Descending key sort, `sorted(keys, reverse=True)`. -/
def sortDesc (l : List ℚ) : List ℚ := List.insertionSort (· ≥ ·) l

/-- Predicate `price_doesnt_match` (source lines 70-74), the hard price boundary of
the matching walk. -/
def price_doesnt_match (incoming : Order) (book_price : ℚ) : Bool :=
  if incoming.type = OType.BUY then decide (incoming.price < book_price)
  else decide (book_price < incoming.price)

/-- Source method `OrderBook.execute_match` (source lines 95-97). -/
def execute_match (incoming book_order : Order) : Trade :=
  { type := incoming.type
    price := book_order.price
    quantity := min incoming.quantity book_order.quantity
    incoming_order_id := incoming.order_id
    book_order_id := book_order.order_id }

/-- The inner loop of `process_match` (source lines 80-86): walk one price
level in arrival order, executing against each resting order unless the
incoming order is already exhausted, decrementing both quantities with the
source's `max(0, ...)` clamp.  Returns the updated incoming order, the
level with its (not yet compacted) updated orders, and the emitted trades
in order. -/
def match_orders : Order → List Order → Order × List Order × List Trade
  | incoming, [] => (incoming, [], [])
  | incoming, bo :: rest =>
    if incoming.quantity = 0 then (incoming, bo :: rest, [])
    else
      let t := execute_match incoming bo
      let incoming' := { incoming with quantity := max 0 (incoming.quantity - t.quantity) }
      let bo' := { bo with quantity := max 0 (bo.quantity - t.quantity) }
      let r := match_orders incoming' rest
      (r.1, bo' :: r.2.1, t :: r.2.2)

/-- The outer loop of `process_match` (source lines 76-89): walk the given
price keys in order, stopping at exhaustion of the incoming order or at the
first non-crossing price; after each visited level, reassign it to its
surviving (positive-quantity) orders and pop it when empty. -/
def match_prices : Order → Dict → List ℚ → Order × Dict × List Trade
  | incoming, levels, [] => (incoming, levels, [])
  | incoming, levels, p :: rest =>
    if incoming.quantity = 0 ∨ price_doesnt_match incoming p = true then
      (incoming, levels, [])
    else
      let orders_at_level := (getLevel levels p).getD []
      let r := match_orders incoming orders_at_level
      let surviving := r.2.1.filter (fun o => 0 < o.quantity)
      let levels₁ := dictSet levels p surviving
      let levels₂ := if surviving = [] then dictPop levels₁ p else levels₁
      let r' := match_prices r.1 levels₂ rest
      (r'.1, r'.2.1, r.2.2 ++ r'.2.2)

/-- The opposite-side walk of `OrderBook.process_match` (source lines
67-68 and 76-89), before the book state is written back: pick the opposite
side index and its sorted keys (ascending for a BUY, descending for a
SELL) and run the matching loops. -/
def process_match_core (b : OrderBook) (incoming : Order) : Order × Dict × List Trade :=
  let levels := if incoming.type = OType.SELL then b.bids else b.offers
  let prices := if incoming.type = OType.SELL then sortDesc (keys levels) else sortAsc (keys levels)
  match_prices incoming levels prices

/-- Source method `OrderBook.process_match` (source lines 65-93): run the walk, write the
mutated opposite side and the emitted trades back into the book, and, if
the incoming order still has positive remaining quantity, append it to its
own side's level at its own limit price (source lines 90-93). -/
def process_match (b : OrderBook) (incoming : Order) : OrderBook :=
  let r := process_match_core b incoming
  let b₁ :=
    if incoming.type = OType.SELL then
      { b with bids := r.2.1, trades := b.trades ++ r.2.2 }
    else
      { b with offers := r.2.1, trades := b.trades ++ r.2.2 }
  if 0 < r.1.quantity then
    if r.1.type = OType.BUY then { b₁ with bids := dictAppend b₁.bids r.1.price r.1 }
    else { b₁ with offers := dictAppend b₁.offers r.1.price r.1 }
  else b₁

/-- The stamping step of `process_order` (source lines 52-53): attach the
timestamp and the fresh order id `self.new_order_id()`. -/
def stamp (b : OrderBook) (now : ℕ) (o : Order) : Order :=
  { o with timestamp := some now, order_id := some (b.order_id + 1) }

/-- Source method `OrderBook.process_order` (source lines 50-63): stamp the incoming
order, then route it: a BUY goes to `process_match` iff
`price >= min_offer and offers`, a SELL iff `price <= max_bid and bids`;
otherwise the order is appended to its own side's level at its limit
price. -/
def process_order (b : OrderBook) (now : ℕ) (o : Order) : OrderBook :=
  let o' := stamp b now o
  let b' := { b with order_id := b.order_id + 1 }
  if o'.type = OType.BUY then
    if min_offer b' ≤ (o'.price : WithTop ℚ) ∧ b'.offers ≠ [] then process_match b' o'
    else { b' with bids := dictAppend b'.bids o'.price o' }
  else
    if o'.price ≤ max_bid b' ∧ b'.bids ≠ [] then process_match b' o'
    else { b' with offers := dictAppend b'.offers o'.price o' }

/-- Process a sequence of (timestamp, order) submissions in order, as the
driver loop `while not empty: ob.process_order(...)` does. -/
def processAll : OrderBook → List (ℕ × Order) → OrderBook
  | b, [] => b
  | b, (now, o) :: rest => processAll (process_order b now o) rest

/-- A well-formed submission: positive price, positive integer quantity. -/
def validOrder (o : Order) : Prop := 0 < o.price ∧ 0 < o.quantity

instance validOrderDecidable (o : Order) : Decidable (validOrder o) :=
  decidable_of_iff (0 < o.price ∧ 0 < o.quantity) Iff.rfl

/-- The book-assigned identity of an order (`0` if not yet stamped). -/
def oid (o : Order) : ℕ := o.order_id.getD 0

/-- Default order used only as the out-of-range fallback of `List.getD`. -/
def defaultOrder : Order := { type := OType.BUY, price := 0, quantity := 0 }

/-- The side index an order of type `t` rests on. -/
def sameSide (b : OrderBook) (t : OType) : Dict :=
  if t = OType.BUY then b.bids else b.offers

/-- The side index an order of type `t` matches against. -/
def oppSide (b : OrderBook) (t : OType) : Dict :=
  if t = OType.BUY then b.offers else b.bids

/-- Marketability in the spec's words: a BUY is marketable iff the offer
side is non-empty and its price is at least the current minimum offer
price; a SELL iff the bid side is non-empty and its price is at most the
current maximum bid price. -/
def marketable (b : OrderBook) (o : Order) : Prop :=
  if o.type = OType.BUY then
    b.offers ≠ [] ∧ (keys b.offers).minimum ≤ (o.price : WithTop ℚ)
  else
    b.bids ≠ [] ∧ (o.price : WithBot ℚ) ≤ (keys b.bids).maximum

/-- The trades emitted by one `process_order` call: what the call appended
to the trades queue. -/
def emittedTrades (b : OrderBook) (now : ℕ) (o : Order) : List Trade :=
  (process_order b now o).trades.drop b.trades.length

/-- The incoming order's remaining quantity when its `process_order` call
ends, following the same routing as `process_order`. -/
def remainingAfter (b : OrderBook) (now : ℕ) (o : Order) : ℤ :=
  let o' := stamp b now o
  let b' := { b with order_id := b.order_id + 1 }
  if o'.type = OType.BUY then
    if min_offer b' ≤ (o'.price : WithTop ℚ) ∧ b'.offers ≠ [] then
      (process_match_core b' o').1.quantity
    else o'.quantity
  else
    if o'.price ≤ max_bid b' ∧ b'.bids ≠ [] then
      (process_match_core b' o').1.quantity
    else o'.quantity

example : (process_order initBook 5 { type := OType.BUY, price := 2, quantity := 3 }).bids =
    [(2, [{ type := OType.BUY, price := 2, quantity := 3, timestamp := some 5,
            order_id := some 1 }])] := by decide

/-! ### Dictionary lemmas -/

@[simp] theorem keys_nil : keys [] = [] := rfl

@[simp] theorem keys_cons (q : ℚ) (l : List Order) (d : Dict) :
    keys ((q, l) :: d) = q :: keys d := rfl

theorem getLevel_eq_none {d : Dict} {p : ℚ} : getLevel d p = none ↔ p ∉ keys d := by
  induction d with
  | nil => simp [getLevel]
  | cons hd rest ih =>
    obtain ⟨q, l⟩ := hd
    by_cases h : p = q <;> simp [getLevel, h, ih]

theorem getLevel_mem {d : Dict} {p : ℚ} {l : List Order} (h : getLevel d p = some l) :
    (p, l) ∈ d := by
  induction d with
  | nil => simp [getLevel] at h
  | cons hd rest ih =>
    obtain ⟨q, l₀⟩ := hd
    by_cases hpq : p = q
    · subst hpq
      simp [getLevel] at h
      simp [h]
    · simp [getLevel, hpq] at h
      exact List.mem_cons_of_mem _ (ih h)

theorem getLevel_isSome_of_mem_keys {d : Dict} {p : ℚ} (h : p ∈ keys d) :
    ∃ l, getLevel d p = some l := by
  cases hg : getLevel d p with
  | none => exact absurd (getLevel_eq_none.1 hg) (by simp [h])
  | some l => exact ⟨l, rfl⟩

theorem mem_keys_dictAppend {d : Dict} {p q : ℚ} {o : Order} :
    q ∈ keys (dictAppend d p o) ↔ q ∈ keys d ∨ q = p := by
  induction d with
  | nil => simp [dictAppend]
  | cons hd rest ih =>
    obtain ⟨k, l⟩ := hd
    by_cases h : p = k
    · subst h
      by_cases hq : q = p <;> simp [dictAppend, hq]
    · simp [dictAppend, h, ih]
      tauto

theorem keys_dictAppend_of_mem {d : Dict} {p : ℚ} {o : Order} (h : p ∈ keys d) :
    keys (dictAppend d p o) = keys d := by
  induction d with
  | nil => simp at h
  | cons hd rest ih =>
    obtain ⟨k, l⟩ := hd
    by_cases hpk : p = k
    · simp [dictAppend, hpk]
    · simp [hpk] at h
      simp [dictAppend, hpk, ih h]

theorem keys_dictAppend_of_not_mem {d : Dict} {p : ℚ} {o : Order} (h : p ∉ keys d) :
    keys (dictAppend d p o) = keys d ++ [p] := by
  induction d with
  | nil => simp [dictAppend]
  | cons hd rest ih =>
    obtain ⟨k, l⟩ := hd
    simp at h
    simp [dictAppend, h.1, ih h.2]

theorem nodup_keys_dictAppend {d : Dict} {p : ℚ} {o : Order} (h : (keys d).Nodup) :
    (keys (dictAppend d p o)).Nodup := by
  by_cases hp : p ∈ keys d
  · rw [keys_dictAppend_of_mem hp]; exact h
  · rw [keys_dictAppend_of_not_mem hp]
    simpa [List.nodup_append] using ⟨h, hp⟩

theorem getLevel_dictAppend_self {d : Dict} {p : ℚ} {o : Order} :
    getLevel (dictAppend d p o) p = some ((getLevel d p).getD [] ++ [o]) := by
  induction d with
  | nil => simp [dictAppend, getLevel]
  | cons hd rest ih =>
    obtain ⟨k, l⟩ := hd
    by_cases h : p = k
    · subst h
      simp [dictAppend, getLevel]
    · simp [dictAppend, getLevel, h, ih]

theorem getLevel_dictAppend_ne {d : Dict} {p q : ℚ} {o : Order} (h : q ≠ p) :
    getLevel (dictAppend d p o) q = getLevel d q := by
  induction d with
  | nil => simp [dictAppend, getLevel, h]
  | cons hd rest ih =>
    obtain ⟨k, l⟩ := hd
    by_cases hpk : p = k
    · subst hpk
      simp [dictAppend, getLevel, h]
    · by_cases hqk : q = k <;> simp [dictAppend, getLevel, hpk, hqk, ih]

theorem mem_dictAppend {d : Dict} {p : ℚ} {o : Order} {pl : ℚ × List Order}
    (h : pl ∈ dictAppend d p o) :
    pl ∈ d ∨ (pl.1 = p ∧ pl.2 = (getLevel d p).getD [] ++ [o]) := by
  induction d with
  | nil => simp [dictAppend] at h; simp [h, getLevel]
  | cons hd rest ih =>
    obtain ⟨k, l⟩ := hd
    by_cases hpk : p = k
    · subst hpk
      simp [dictAppend] at h
      rcases h with h | h
      · right; simp [h, getLevel]
      · left; exact List.mem_cons_of_mem _ h
    · simp [dictAppend, hpk] at h
      rcases h with h | h
      · left; simp [h]
      · rcases ih h with h' | h'
        · left; exact List.mem_cons_of_mem _ h'
        · right
          simpa [getLevel, hpk] using h'


theorem keys_dictSet_of_mem {d : Dict} {p : ℚ} {l : List Order} (h : p ∈ keys d) :
    keys (dictSet d p l) = keys d := by
  induction d with
  | nil => simp at h
  | cons hd rest ih =>
    obtain ⟨k, l₀⟩ := hd
    by_cases hpk : p = k
    · simp [dictSet, hpk]
    · simp [hpk] at h
      simp [dictSet, hpk, ih h]

theorem mem_dictSet {d : Dict} {p : ℚ} {l : List Order} {pl : ℚ × List Order}
    (h : pl ∈ dictSet d p l) : pl ∈ d ∨ pl = (p, l) := by
  induction d with
  | nil => simp [dictSet] at h; simp [h]
  | cons hd rest ih =>
    obtain ⟨k, l₀⟩ := hd
    by_cases hpk : p = k
    · subst hpk
      simp [dictSet] at h
      tauto
    · simp [dictSet, hpk] at h
      rcases h with h | h
      · left; simp [h]
      · rcases ih h with h' | h'
        · left; exact List.mem_cons_of_mem _ h'
        · right; exact h'

theorem getLevel_dictSet_ne {d : Dict} {p q : ℚ} {l : List Order} (h : q ≠ p) :
    getLevel (dictSet d p l) q = getLevel d q := by
  induction d with
  | nil => simp [dictSet, getLevel, h]
  | cons hd rest ih =>
    obtain ⟨k, l₀⟩ := hd
    by_cases hpk : p = k
    · subst hpk
      simp [dictSet, getLevel, h]
    · by_cases hqk : q = k <;> simp [dictSet, getLevel, hpk, hqk, ih]

theorem dictPop_dictSet_of_not_mem {d : Dict} {p : ℚ} {l : List Order} (h : p ∉ keys d) :
    dictPop (dictSet d p l) p = d := by
  induction d with
  | nil => simp [dictSet, dictPop]
  | cons hd rest ih =>
    obtain ⟨k, l₀⟩ := hd
    simp at h
    simp [dictSet, dictPop, h.1, ih h.2]

theorem mem_dictPop {d : Dict} {p : ℚ} {pl : ℚ × List Order} (h : pl ∈ dictPop d p) :
    pl ∈ d := by
  induction d with
  | nil => simp [dictPop] at h
  | cons hd rest ih =>
    obtain ⟨k, l₀⟩ := hd
    by_cases hpk : p = k
    · simp [dictPop, hpk] at h
      exact List.mem_cons_of_mem _ h
    · simp [dictPop, hpk] at h
      rcases h with h | h
      · simp [h]
      · exact List.mem_cons_of_mem _ (ih h)

theorem keys_dictPop_subset {d : Dict} {p q : ℚ} (h : q ∈ keys (dictPop d p)) :
    q ∈ keys d := by
  induction d with
  | nil => simp [dictPop] at h
  | cons hd rest ih =>
    obtain ⟨k, l₀⟩ := hd
    by_cases hpk : p = k
    · simp [dictPop, hpk] at h
      simp [h]
    · simp [dictPop, hpk] at h
      rcases h with h | h
      · simp [h]
      · simp [ih h]

theorem nodup_keys_dictPop {d : Dict} {p : ℚ} (h : (keys d).Nodup) :
    (keys (dictPop d p)).Nodup := by
  induction d with
  | nil => simp [dictPop]
  | cons hd rest ih =>
    obtain ⟨k, l₀⟩ := hd
    simp at h
    by_cases hpk : p = k
    · simpa [dictPop, hpk] using h.2
    · simp [dictPop, hpk]
      exact ⟨fun hk => h.1 (keys_dictPop_subset hk), ih h.2⟩

theorem not_mem_keys_dictPop {d : Dict} {p : ℚ} (h : (keys d).Nodup) :
    p ∉ keys (dictPop d p) := by
  induction d with
  | nil => simp [dictPop]
  | cons hd rest ih =>
    obtain ⟨k, l₀⟩ := hd
    simp at h
    by_cases hpk : p = k
    · subst hpk
      simpa [dictPop] using h.1
    · simp [dictPop, hpk]
      exact ih h.2

theorem getLevel_dictPop_ne {d : Dict} {p q : ℚ} (h : q ≠ p) :
    getLevel (dictPop d p) q = getLevel d q := by
  induction d with
  | nil => simp [dictPop]
  | cons hd rest ih =>
    obtain ⟨k, l₀⟩ := hd
    by_cases hpk : p = k
    · subst hpk
      simp [dictPop, getLevel, h]
    · by_cases hqk : q = k <;> simp [dictPop, getLevel, hpk, hqk, ih]

/-! ### Lemmas about the inner matching loop (`match_orders`) -/

theorem match_orders_nil (incoming : Order) : match_orders incoming [] = (incoming, [], []) := rfl

theorem match_orders_zero {incoming : Order} (l : List Order) (h : incoming.quantity = 0) :
    match_orders incoming l = (incoming, l, []) := by
  cases l with
  | nil => simp [match_orders]
  | cons bo rest => simp [match_orders, h]

theorem match_orders_cons {incoming bo : Order} (rest : List Order)
    (h : ¬incoming.quantity = 0) :
    match_orders incoming (bo :: rest) =
      ((match_orders { incoming with
          quantity := max 0 (incoming.quantity - min incoming.quantity bo.quantity) } rest).1,
       { bo with quantity := max 0 (bo.quantity - min incoming.quantity bo.quantity) } ::
         (match_orders { incoming with
           quantity := max 0 (incoming.quantity - min incoming.quantity bo.quantity) } rest).2.1,
       execute_match incoming bo ::
         (match_orders { incoming with
           quantity := max 0 (incoming.quantity - min incoming.quantity bo.quantity) } rest).2.2) := by
  simp [match_orders, h, execute_match]

theorem match_orders_fst_fields (incoming : Order) (l : List Order) :
    (match_orders incoming l).1.price = incoming.price ∧
    (match_orders incoming l).1.type = incoming.type ∧
    (match_orders incoming l).1.order_id = incoming.order_id := by
  induction l generalizing incoming with
  | nil => simp [match_orders]
  | cons bo rest ih =>
    by_cases h : incoming.quantity = 0
    · simp [match_orders_zero _ h]
    · rw [match_orders_cons rest h]
      exact ih _

theorem match_orders_fst_nonneg {incoming : Order} {l : List Order}
    (h : 0 ≤ incoming.quantity) : 0 ≤ (match_orders incoming l).1.quantity := by
  induction l generalizing incoming with
  | nil => simpa [match_orders]
  | cons bo rest ih =>
    by_cases h0 : incoming.quantity = 0
    · rw [match_orders_zero _ h0]; exact h
    · rw [match_orders_cons rest h0]
      exact ih (le_max_left 0 _)

theorem match_orders_consumed {incoming : Order} {l : List Order}
    (h : 0 < (match_orders incoming l).1.quantity) :
    ∀ o ∈ (match_orders incoming l).2.1, o.quantity ≤ 0 := by
  induction l generalizing incoming with
  | nil => simp [match_orders]
  | cons bo rest ih =>
    by_cases h0 : incoming.quantity = 0
    · rw [match_orders_zero _ h0] at h
      have h' : 0 < incoming.quantity := h
      rw [h0] at h'
      exact absurd h' (lt_irrefl 0)
    · rw [match_orders_cons rest h0] at h ⊢
      by_cases h1 : max 0 (incoming.quantity - min incoming.quantity bo.quantity) = 0
      · exfalso
        rw [match_orders_zero rest h1] at h
        have h' : 0 < max 0 (incoming.quantity - min incoming.quantity bo.quantity) := h
        rw [h1] at h'
        exact lt_irrefl 0 h'
      · have hq1 : 0 < max 0 (incoming.quantity - min incoming.quantity bo.quantity) :=
          lt_of_le_of_ne (le_max_left 0 _) (Ne.symm h1)
        have hx : 0 < incoming.quantity - min incoming.quantity bo.quantity := by
          rcases le_or_lt (incoming.quantity - min incoming.quantity bo.quantity) 0 with hc | hc
          · rw [max_eq_left hc] at hq1
            exact absurd hq1 (lt_irrefl 0)
          · exact hc
        have hmin : min incoming.quantity bo.quantity = bo.quantity := by
          rcases le_total incoming.quantity bo.quantity with hc | hc
          · rw [min_eq_left hc] at hx
            simp at hx
          · exact min_eq_right hc
        intro o ho
        rcases List.mem_cons.1 ho with rfl | ho
        · show max 0 (bo.quantity - min incoming.quantity bo.quantity) ≤ 0
          rw [hmin]
          simp
        · exact ih h o ho

theorem match_orders_forall₂ (incoming : Order) (l : List Order) :
    List.Forall₂ (fun o o' => o'.price = o.price ∧ o'.type = o.type ∧
      o'.order_id = o.order_id ∧ (0 ≤ o.quantity → 0 ≤ o'.quantity))
      l (match_orders incoming l).2.1 := by
  induction l generalizing incoming with
  | nil => simp [match_orders]
  | cons bo rest ih =>
    by_cases h0 : incoming.quantity = 0
    · rw [match_orders_zero _ h0]
      exact List.forall₂_same.2 fun o _ => ⟨rfl, rfl, rfl, id⟩
    · rw [match_orders_cons rest h0]
      exact List.Forall₂.cons ⟨rfl, rfl, rfl, fun _ => le_max_left 0 _⟩ (ih _)

theorem match_orders_length (incoming : Order) (l : List Order) :
    (match_orders incoming l).2.1.length = l.length :=
  ((match_orders_forall₂ incoming l).length_eq).symm

theorem match_orders_conservation {incoming : Order} {l : List Order}
    (hinc : 0 ≤ incoming.quantity) (hl : ∀ o ∈ l, 0 ≤ o.quantity) :
    incoming.quantity = (match_orders incoming l).1.quantity +
      (((match_orders incoming l).2.2).map Trade.quantity).sum := by
  induction l generalizing incoming with
  | nil => simp [match_orders]
  | cons bo rest ih =>
    by_cases h0 : incoming.quantity = 0
    · rw [match_orders_zero _ h0]
      simp [h0]
    · rw [match_orders_cons rest h0]
      have hbo : 0 ≤ bo.quantity := hl bo (List.mem_cons_self _ _)
      have hmin0 : 0 ≤ min incoming.quantity bo.quantity := le_min hinc hbo
      have hminle : min incoming.quantity bo.quantity ≤ incoming.quantity := min_le_left _ _
      have key : ({ incoming with
          quantity := max 0 (incoming.quantity - min incoming.quantity bo.quantity) } :
            Order).quantity = incoming.quantity - min incoming.quantity bo.quantity :=
        max_eq_right (by linarith)
      have ih' := @ih { incoming with
          quantity := max 0 (incoming.quantity - min incoming.quantity bo.quantity) }
        (le_max_left 0 _) (fun o ho => hl o (List.mem_cons_of_mem _ ho))
      rw [key] at ih'
      simp only [List.map_cons, List.sum_cons, execute_match]
      linarith [ih']

theorem match_orders_trades {incoming : Order} {l : List Order}
    (hinc : 0 ≤ incoming.quantity) (hl : ∀ o ∈ l, 0 < o.quantity) :
    ∀ t ∈ (match_orders incoming l).2.2,
      t.type = incoming.type ∧ t.incoming_order_id = incoming.order_id ∧
      0 < t.quantity ∧ ∃ bo ∈ l, t.price = bo.price ∧ t.book_order_id = bo.order_id := by
  induction l generalizing incoming with
  | nil => simp [match_orders]
  | cons bo rest ih =>
    by_cases h0 : incoming.quantity = 0
    · rw [match_orders_zero _ h0]
      simp
    · rw [match_orders_cons rest h0]
      intro t ht
      rcases List.mem_cons.1 ht with rfl | ht
      · refine ⟨rfl, rfl, ?_, bo, List.mem_cons_self _ _, rfl, rfl⟩
        show 0 < min incoming.quantity bo.quantity
        exact lt_min (lt_of_le_of_ne hinc (Ne.symm h0)) (hl bo (List.mem_cons_self _ _))
      · have hrec := @ih { incoming with
            quantity := max 0 (incoming.quantity - min incoming.quantity bo.quantity) }
          (le_max_left 0 _) (fun o ho => hl o (List.mem_cons_of_mem _ ho)) t ht
        obtain ⟨bo', hbo', h1, h2⟩ := hrec.2.2.2
        exact ⟨hrec.1, hrec.2.1, hrec.2.2.1, bo', List.mem_cons_of_mem _ hbo', h1, h2⟩

theorem match_orders_priority {incoming : Order} {l : List Order} :
    ∀ i j : ℕ, i < j → j < l.length →
      ((match_orders incoming l).2.1.getD j defaultOrder).quantity <
        (l.getD j defaultOrder).quantity →
      ((match_orders incoming l).2.1.getD i defaultOrder).quantity = 0 := by
  induction l generalizing incoming with
  | nil =>
    intro i j hij hj
    simp at hj
  | cons bo rest ih =>
    intro i j hij hj hdec
    by_cases h0 : incoming.quantity = 0
    · rw [match_orders_zero _ h0] at hdec
      exact absurd hdec (lt_irrefl _)
    · rw [match_orders_cons rest h0] at hdec ⊢
      dsimp only at hdec ⊢
      cases j with
      | zero => omega
      | succ j' =>
        rw [List.getD_cons_succ, List.getD_cons_succ] at hdec
        cases i with
        | zero =>
          rw [List.getD_cons_zero]
          by_cases h1 : max 0 (incoming.quantity - min incoming.quantity bo.quantity) = 0
          · rw [match_orders_zero rest h1] at hdec
            exact absurd hdec (lt_irrefl _)
          · have hq1 : 0 < max 0 (incoming.quantity - min incoming.quantity bo.quantity) :=
              lt_of_le_of_ne (le_max_left 0 _) (Ne.symm h1)
            have hx : 0 < incoming.quantity - min incoming.quantity bo.quantity := by
              rcases le_or_lt (incoming.quantity - min incoming.quantity bo.quantity) 0 with hc | hc
              · rw [max_eq_left hc] at hq1
                exact absurd hq1 (lt_irrefl 0)
              · exact hc
            have hmin : min incoming.quantity bo.quantity = bo.quantity := by
              rcases le_total incoming.quantity bo.quantity with hc | hc
              · rw [min_eq_left hc] at hx
                simp at hx
              · exact min_eq_right hc
            show max 0 (bo.quantity - min incoming.quantity bo.quantity) = 0
            rw [hmin]
            simp
        | succ i' =>
          rw [List.getD_cons_succ]
          refine ih i' j' (by omega) (by simpa using hj) hdec

theorem forall₂_exists_mem_left {α β : Type} {R : α → β → Prop} :
    ∀ {l : List α} {l' : List β}, List.Forall₂ R l l' → ∀ b ∈ l', ∃ a ∈ l, R a b := by
  intro l l' h
  induction h with
  | nil => simp
  | cons hR hF ih =>
    intro b hb
    rcases List.mem_cons.1 hb with rfl | hb
    · exact ⟨_, List.mem_cons_self _ _, hR⟩
    · obtain ⟨a, ha, hRa⟩ := ih b hb
      exact ⟨a, List.mem_cons_of_mem _ ha, hRa⟩

theorem pairwise_of_forall₂ {α β : Type} {R : α → β → Prop} {S : α → α → Prop}
    {T : β → β → Prop} (hST : ∀ a a' b b', R a b → R a' b' → S a a' → T b b') :
    ∀ {l : List α} {l' : List β}, List.Forall₂ R l l' → l.Pairwise S → l'.Pairwise T := by
  intro l l' h
  induction h with
  | nil =>
    intro hp
    exact List.Pairwise.nil
  | cons hR hF ih =>
    intro hp
    rcases List.pairwise_cons.1 hp with ⟨hhead, htail⟩
    refine List.pairwise_cons.2 ⟨?_, ih htail⟩
    intro b' hb'
    obtain ⟨a', ha', hRa⟩ := forall₂_exists_mem_left hF b' hb'
    exact hST _ _ _ _ hR hRa (hhead a' ha')

/-! ### Lemmas about the outer matching loop (`match_prices`) -/

/-- The compacted list of survivors of one level visit (source line 87). -/
def surviving (incoming : Order) (orders : List Order) : List Order :=
  ((match_orders incoming orders).2.1).filter (fun o => 0 < o.quantity)

/-- The opposite side index after one level visit (source lines 87-89):
reassign the level to its survivors, popping it when empty. -/
def levelsAfter (incoming : Order) (levels : Dict) (p : ℚ) : Dict :=
  let s := surviving incoming ((getLevel levels p).getD [])
  if s = [] then dictPop (dictSet levels p s) p else dictSet levels p s

theorem mem_keys_of_mem {d : Dict} {pl : ℚ × List Order} (h : pl ∈ d) : pl.1 ∈ keys d :=
  List.mem_map_of_mem Prod.fst h

theorem keys_dictSet_of_not_mem {d : Dict} {p : ℚ} {l : List Order} (h : p ∉ keys d) :
    keys (dictSet d p l) = keys d ++ [p] := by
  induction d with
  | nil => simp [dictSet]
  | cons hd rest ih =>
    obtain ⟨k, l₀⟩ := hd
    simp at h
    simp [dictSet, h.1, ih h.2]

theorem nodup_keys_dictSet {d : Dict} {p : ℚ} {l : List Order} (h : (keys d).Nodup) :
    (keys (dictSet d p l)).Nodup := by
  by_cases hp : p ∈ keys d
  · rw [keys_dictSet_of_mem hp]
    exact h
  · rw [keys_dictSet_of_not_mem hp]
    simpa [List.nodup_append] using ⟨h, hp⟩

theorem match_prices_nil (incoming : Order) (levels : Dict) :
    match_prices incoming levels [] = (incoming, levels, []) := rfl

theorem match_prices_stop {incoming : Order} {levels : Dict} {p : ℚ} (rest : List ℚ)
    (h : incoming.quantity = 0 ∨ price_doesnt_match incoming p = true) :
    match_prices incoming levels (p :: rest) = (incoming, levels, []) := by
  simp only [match_prices]
  rw [if_pos h]

theorem match_prices_go {incoming : Order} {levels : Dict} {p : ℚ} (rest : List ℚ)
    (h : ¬(incoming.quantity = 0 ∨ price_doesnt_match incoming p = true)) :
    match_prices incoming levels (p :: rest) =
      ((match_prices (match_orders incoming ((getLevel levels p).getD [])).1
          (levelsAfter incoming levels p) rest).1,
       (match_prices (match_orders incoming ((getLevel levels p).getD [])).1
          (levelsAfter incoming levels p) rest).2.1,
       (match_orders incoming ((getLevel levels p).getD [])).2.2 ++
         (match_prices (match_orders incoming ((getLevel levels p).getD [])).1
           (levelsAfter incoming levels p) rest).2.2) := by
  simp only [match_prices, levelsAfter, surviving]
  rw [if_neg h]

theorem surviving_ne_nil_getLevel {incoming : Order} {levels : Dict} {p : ℚ}
    (h : surviving incoming ((getLevel levels p).getD []) ≠ []) : p ∈ keys levels := by
  by_contra hp
  rw [getLevel_eq_none.2 hp] at h
  simp [surviving, match_orders] at h

theorem keys_levelsAfter_subset {incoming : Order} {levels : Dict} {p q : ℚ}
    (h : q ∈ keys (levelsAfter incoming levels p)) : q ∈ keys levels := by
  unfold levelsAfter at h
  by_cases hnil : surviving incoming ((getLevel levels p).getD []) = []
  · rw [if_pos hnil] at h
    by_cases hp : p ∈ keys levels
    · have h2 := keys_dictPop_subset h
      rwa [keys_dictSet_of_mem hp] at h2
    · rwa [dictPop_dictSet_of_not_mem hp] at h
  · rw [if_neg hnil] at h
    rwa [keys_dictSet_of_mem (surviving_ne_nil_getLevel hnil)] at h

theorem getLevel_levelsAfter_ne {incoming : Order} {levels : Dict} {p q : ℚ} (h : q ≠ p) :
    getLevel (levelsAfter incoming levels p) q = getLevel levels q := by
  unfold levelsAfter
  by_cases hnil : surviving incoming ((getLevel levels p).getD []) = []
  · rw [if_pos hnil, getLevel_dictPop_ne h, getLevel_dictSet_ne h]
  · rw [if_neg hnil, getLevel_dictSet_ne h]

theorem nodup_keys_levelsAfter {incoming : Order} {levels : Dict} {p : ℚ}
    (hnd : (keys levels).Nodup) : (keys (levelsAfter incoming levels p)).Nodup := by
  unfold levelsAfter
  by_cases hnil : surviving incoming ((getLevel levels p).getD []) = []
  · rw [if_pos hnil]
    exact nodup_keys_dictPop (nodup_keys_dictSet hnd)
  · rw [if_neg hnil]
    exact nodup_keys_dictSet hnd

theorem not_mem_keys_levelsAfter {incoming : Order} {levels : Dict} {p : ℚ}
    (hnd : (keys levels).Nodup)
    (hnil : surviving incoming ((getLevel levels p).getD []) = []) :
    p ∉ keys (levelsAfter incoming levels p) := by
  unfold levelsAfter
  rw [if_pos hnil]
  exact not_mem_keys_dictPop (nodup_keys_dictSet hnd)

theorem mem_levelsAfter {incoming : Order} {levels : Dict} {p : ℚ}
    (hnd : (keys levels).Nodup) {pl : ℚ × List Order}
    (h : pl ∈ levelsAfter incoming levels p) :
    pl ∈ levels ∨ (pl.1 = p ∧ pl.2 = surviving incoming ((getLevel levels p).getD []) ∧
      pl.2 ≠ []) := by
  unfold levelsAfter at h
  by_cases hnil : surviving incoming ((getLevel levels p).getD []) = []
  · rw [if_pos hnil] at h
    left
    rcases mem_dictSet (mem_dictPop h) with h3 | h3
    · exact h3
    · exfalso
      have hmem := mem_keys_of_mem h
      rw [h3] at hmem
      exact not_mem_keys_dictPop (nodup_keys_dictSet hnd) hmem
  · rw [if_neg hnil] at h
    rcases mem_dictSet h with h3 | h3
    · exact Or.inl h3
    · right
      rw [h3]
      exact ⟨rfl, rfl, hnil⟩

theorem match_prices_zero {incoming : Order} (levels : Dict) (prices : List ℚ)
    (h : incoming.quantity = 0) :
    match_prices incoming levels prices = (incoming, levels, []) := by
  cases prices with
  | nil => rfl
  | cons p rest => exact match_prices_stop rest (Or.inl h)

theorem match_prices_fst_fields (incoming : Order) (levels : Dict) (prices : List ℚ) :
    (match_prices incoming levels prices).1.price = incoming.price ∧
    (match_prices incoming levels prices).1.type = incoming.type ∧
    (match_prices incoming levels prices).1.order_id = incoming.order_id := by
  induction prices generalizing incoming levels with
  | nil => exact ⟨rfl, rfl, rfl⟩
  | cons p rest ih =>
    by_cases h : incoming.quantity = 0 ∨ price_doesnt_match incoming p = true
    · rw [match_prices_stop rest h]
      exact ⟨rfl, rfl, rfl⟩
    · rw [match_prices_go rest h]
      have hmo := match_orders_fst_fields incoming ((getLevel levels p).getD [])
      have hr := ih (match_orders incoming ((getLevel levels p).getD [])).1
        (levelsAfter incoming levels p)
      exact ⟨hr.1.trans hmo.1, hr.2.1.trans hmo.2.1, hr.2.2.trans hmo.2.2⟩

theorem match_prices_fst_nonneg {incoming : Order} {levels : Dict} {prices : List ℚ}
    (h : 0 ≤ incoming.quantity) : 0 ≤ (match_prices incoming levels prices).1.quantity := by
  induction prices generalizing incoming levels with
  | nil => exact h
  | cons p rest ih =>
    by_cases hc : incoming.quantity = 0 ∨ price_doesnt_match incoming p = true
    · rw [match_prices_stop rest hc]
      exact h
    · rw [match_prices_go rest hc]
      exact ih (match_orders_fst_nonneg h)

theorem match_prices_keys_subset {incoming : Order} {levels : Dict} {prices : List ℚ} {q : ℚ}
    (h : q ∈ keys (match_prices incoming levels prices).2.1) : q ∈ keys levels := by
  induction prices generalizing incoming levels with
  | nil => exact h
  | cons p rest ih =>
    by_cases hc : incoming.quantity = 0 ∨ price_doesnt_match incoming p = true
    · rw [match_prices_stop rest hc] at h
      exact h
    · rw [match_prices_go rest hc] at h
      exact keys_levelsAfter_subset (ih h)

theorem nodup_keys_match_prices {incoming : Order} {levels : Dict} {prices : List ℚ}
    (hnd : (keys levels).Nodup) :
    (keys (match_prices incoming levels prices).2.1).Nodup := by
  induction prices generalizing incoming levels with
  | nil => exact hnd
  | cons p rest ih =>
    by_cases hc : incoming.quantity = 0 ∨ price_doesnt_match incoming p = true
    · rw [match_prices_stop rest hc]
      exact hnd
    · rw [match_prices_go rest hc]
      exact ih (nodup_keys_levelsAfter hnd)

theorem price_doesnt_match_congr {o o' : Order} (hp : o'.price = o.price)
    (ht : o'.type = o.type) (bp : ℚ) :
    price_doesnt_match o' bp = price_doesnt_match o bp := by
  unfold price_doesnt_match
  rw [hp, ht]

theorem match_prices_consumed {incoming : Order} {levels : Dict} {prices : List ℚ}
    (hq0 : 0 ≤ incoming.quantity)
    (hnd : (keys levels).Nodup) (hpnd : prices.Nodup)
    (hsub : ∀ q ∈ keys levels, q ∈ prices)
    (hmono : prices.Pairwise fun p q =>
      price_doesnt_match incoming p = true → price_doesnt_match incoming q = true)
    (hpos : 0 < (match_prices incoming levels prices).1.quantity) :
    ∀ q ∈ keys (match_prices incoming levels prices).2.1,
      price_doesnt_match incoming q = true := by
  induction prices generalizing incoming levels with
  | nil =>
    intro q hq
    exact absurd (hsub q hq) (List.not_mem_nil q)
  | cons p rest ih =>
    intro q hq
    by_cases hc : incoming.quantity = 0 ∨ price_doesnt_match incoming p = true
    · rw [match_prices_stop rest hc] at hpos hq
      have hpos' : 0 < incoming.quantity := hpos
      have hpdm : price_doesnt_match incoming p = true := by
        rcases hc with hc | hc
        · rw [hc] at hpos'
          exact absurd hpos' (lt_irrefl 0)
        · exact hc
      have hq' : q ∈ keys levels := hq
      rcases List.mem_cons.1 (hsub q hq') with rfl | hqrest
      · exact hpdm
      · exact (List.pairwise_cons.1 hmono).1 q hqrest hpdm
    · rw [match_prices_go rest hc] at hpos hq
      by_cases hsnil : surviving incoming ((getLevel levels p).getD []) = []
      · have hfield := match_orders_fst_fields incoming ((getLevel levels p).getD [])
        have hconv : ∀ bp, price_doesnt_match
            (match_orders incoming ((getLevel levels p).getD [])).1 bp
            = price_doesnt_match incoming bp :=
          price_doesnt_match_congr hfield.1 hfield.2.1
        have hsub' : ∀ r ∈ keys (levelsAfter incoming levels p), r ∈ rest := by
          intro r hr
          rcases List.mem_cons.1 (hsub r (keys_levelsAfter_subset hr)) with rfl | h2
          · exact absurd hr (not_mem_keys_levelsAfter hnd hsnil)
          · exact h2
        have hmono' : rest.Pairwise fun a b =>
            price_doesnt_match (match_orders incoming ((getLevel levels p).getD [])).1 a = true →
            price_doesnt_match (match_orders incoming ((getLevel levels p).getD [])).1 b = true :=
          hmono.of_cons.imp (fun hab => by rw [hconv, hconv]; exact hab)
        have hres := @ih (match_orders incoming ((getLevel levels p).getD [])).1
          (levelsAfter incoming levels p)
          (match_orders_fst_nonneg hq0) (nodup_keys_levelsAfter hnd) hpnd.of_cons
          hsub' hmono' hpos q hq
        rw [hconv q] at hres
        exact hres
      · exfalso
        have hnn : 0 ≤ (match_orders incoming ((getLevel levels p).getD [])).1.quantity :=
          match_orders_fst_nonneg hq0
        have hz : (match_orders incoming ((getLevel levels p).getD [])).1.quantity = 0 := by
          by_contra hzz
          apply hsnil
          unfold surviving
          rw [List.filter_eq_nil_iff]
          intro o ho
          have hle := match_orders_consumed (lt_of_le_of_ne hnn (Ne.symm hzz)) o ho
          simpa using hle
        have hpos' : 0 < (match_orders incoming ((getLevel levels p).getD [])).1.quantity := by
          rw [match_prices_zero _ _ hz] at hpos
          exact hpos
        rw [hz] at hpos'
        exact lt_irrefl 0 hpos'

theorem mem_keys_of_getLevel {d : Dict} {p : ℚ} {l : List Order}
    (h : getLevel d p = some l) : p ∈ keys d := by
  by_contra hp
  rw [getLevel_eq_none.2 hp] at h
  exact Option.noConfusion h

theorem match_prices_conservation {incoming : Order} {levels : Dict} {prices : List ℚ}
    (hq0 : 0 ≤ incoming.quantity) (hnd : (keys levels).Nodup)
    (hlp : ∀ pl ∈ levels, ∀ o ∈ pl.2, 0 ≤ o.quantity) :
    incoming.quantity = (match_prices incoming levels prices).1.quantity +
      (((match_prices incoming levels prices).2.2).map Trade.quantity).sum := by
  induction prices generalizing incoming levels with
  | nil => rw [match_prices_nil]; simp
  | cons p rest ih =>
    by_cases hc : incoming.quantity = 0 ∨ price_doesnt_match incoming p = true
    · rw [match_prices_stop rest hc]
      simp
    · rw [match_prices_go rest hc]
      have horders : ∀ o ∈ (getLevel levels p).getD [], 0 ≤ o.quantity := by
        cases hg : getLevel levels p with
        | none => simp
        | some l =>
          intro o ho
          exact hlp (p, l) (getLevel_mem hg) o (by simpa using ho)
      have hmo := match_orders_conservation hq0 horders
      have hlp' : ∀ pl ∈ levelsAfter incoming levels p, ∀ o ∈ pl.2, 0 ≤ o.quantity := by
        intro pl hpl o ho
        rcases mem_levelsAfter hnd hpl with h | h
        · exact hlp pl h o ho
        · rw [h.2.1] at ho
          have h2 := List.of_mem_filter ho
          simp at h2
          linarith
      have hih := @ih (match_orders incoming ((getLevel levels p).getD [])).1
        (levelsAfter incoming levels p) (match_orders_fst_nonneg hq0)
        (nodup_keys_levelsAfter hnd) hlp'
      rw [List.map_append, List.sum_append]
      linarith [hmo, hih]

theorem match_prices_trades {incoming : Order} {levels : Dict} {prices : List ℚ}
    (hq0 : 0 ≤ incoming.quantity) (hnd : (keys levels).Nodup)
    (hlp : ∀ pl ∈ levels, ∀ o ∈ pl.2, 0 < o.quantity) :
    ∀ t ∈ (match_prices incoming levels prices).2.2,
      t.type = incoming.type ∧ t.incoming_order_id = incoming.order_id ∧ 0 < t.quantity ∧
      ∃ p lvl bo, getLevel levels p = some lvl ∧ bo ∈ lvl ∧
        t.price = bo.price ∧ t.book_order_id = bo.order_id := by
  induction prices generalizing incoming levels with
  | nil => rw [match_prices_nil]; simp
  | cons p rest ih =>
    by_cases hc : incoming.quantity = 0 ∨ price_doesnt_match incoming p = true
    · rw [match_prices_stop rest hc]
      simp
    · rw [match_prices_go rest hc]
      intro t ht
      rcases List.mem_append.1 ht with ht | ht
      · cases hg : getLevel levels p with
        | none =>
          rw [hg] at ht
          simp [match_orders] at ht
        | some lvl =>
          rw [hg] at ht
          simp only [Option.getD_some] at ht
          have hlvl : ∀ o ∈ lvl, 0 < o.quantity :=
            fun o ho => hlp (p, lvl) (getLevel_mem hg) o ho
          have hmo := match_orders_trades hq0 hlvl t ht
          obtain ⟨bo, hbo, h1, h2⟩ := hmo.2.2.2
          exact ⟨hmo.1, hmo.2.1, hmo.2.2.1, p, lvl, bo, hg, hbo, h1, h2⟩
      · by_cases hsnil : surviving incoming ((getLevel levels p).getD []) = []
        · have hfield := match_orders_fst_fields incoming ((getLevel levels p).getD [])
          have hlp' : ∀ pl ∈ levelsAfter incoming levels p, ∀ o ∈ pl.2, 0 < o.quantity := by
            intro pl hpl o ho
            rcases mem_levelsAfter hnd hpl with h | h
            · exact hlp pl h o ho
            · rw [h.2.1] at ho
              have h2 := List.of_mem_filter ho
              simpa using h2
          have hrec := @ih (match_orders incoming ((getLevel levels p).getD [])).1
            (levelsAfter incoming levels p) (match_orders_fst_nonneg hq0)
            (nodup_keys_levelsAfter hnd) hlp' t ht
          refine ⟨hrec.1.trans hfield.2.1, hrec.2.1.trans hfield.2.2, hrec.2.2.1, ?_⟩
          obtain ⟨p', lvl', bo, hg', hbo, h1, h2⟩ := hrec.2.2.2
          have hp' : p' ≠ p := by
            intro he
            subst he
            exact not_mem_keys_levelsAfter hnd hsnil (mem_keys_of_getLevel hg')
          rw [getLevel_levelsAfter_ne hp'] at hg'
          exact ⟨p', lvl', bo, hg', hbo, h1, h2⟩
        · exfalso
          have hnn : 0 ≤ (match_orders incoming ((getLevel levels p).getD [])).1.quantity :=
            match_orders_fst_nonneg hq0
          have hz : (match_orders incoming ((getLevel levels p).getD [])).1.quantity = 0 := by
            by_contra hzz
            apply hsnil
            unfold surviving
            rw [List.filter_eq_nil_iff]
            intro o ho
            have hle := match_orders_consumed (lt_of_le_of_ne hnn (Ne.symm hzz)) o ho
            simpa using hle
          rw [match_prices_zero _ _ hz] at ht
          simp at ht

/-! ### The reachable-book invariant -/

/-- Well-formedness of one side index with respect to the id counter `nid`:
unique price keys, no empty level, only positive remaining quantities, each
order's limit price equal to its level's key, each resting order's id at
most `nid`, and each level sorted by strictly increasing order id (arrival
order). -/
structure SideInv (d : Dict) (nid : ℕ) : Prop where
  nodup : (keys d).Nodup
  nonnil : ∀ pl ∈ d, pl.2 ≠ []
  pos : ∀ pl ∈ d, ∀ o ∈ pl.2, 0 < o.quantity
  priceEq : ∀ pl ∈ d, ∀ o ∈ pl.2, o.price = pl.1
  idLe : ∀ pl ∈ d, ∀ o ∈ pl.2, oid o ≤ nid
  idSorted : ∀ pl ∈ d, pl.2.Pairwise fun a b => oid a < oid b

/-- The invariant of every reachable book state. -/
structure BookInv (b : OrderBook) : Prop where
  bidsInv : SideInv b.bids b.order_id
  offersInv : SideInv b.offers b.order_id
  uncrossed : ∀ p ∈ keys b.bids, ∀ q ∈ keys b.offers, p < q

theorem SideInv.mono {d : Dict} {n m : ℕ} (h : SideInv d n) (hnm : n ≤ m) : SideInv d m :=
  ⟨h.nodup, h.nonnil, h.pos, h.priceEq,
   fun pl hpl o ho => (h.idLe pl hpl o ho).trans hnm, h.idSorted⟩

theorem oid_congr {o o' : Order} (h : o'.order_id = o.order_id) : oid o' = oid o := by
  unfold oid
  rw [h]

theorem mem_getD_getLevel {d : Dict} {p : ℚ} {o : Order}
    (ho : o ∈ (getLevel d p).getD []) : ∃ lvl, getLevel d p = some lvl ∧ o ∈ lvl := by
  cases hg : getLevel d p with
  | none =>
    rw [hg] at ho
    simp at ho
  | some lvl =>
    rw [hg] at ho
    exact ⟨lvl, rfl, by simpa using ho⟩

theorem sideInv_levelsAfter {incoming : Order} {d : Dict} {p : ℚ} {nid : ℕ}
    (h : SideInv d nid) : SideInv (levelsAfter incoming d p) nid := by
  have survFacts : ∀ o ∈ surviving incoming ((getLevel d p).getD []),
      0 < o.quantity ∧ ∃ o₀ ∈ (getLevel d p).getD [],
        o.price = o₀.price ∧ o.type = o₀.type ∧ o.order_id = o₀.order_id := by
    intro o ho
    have h1 := List.mem_filter.1 ho
    have h2 : 0 < o.quantity := by simpa using h1.2
    obtain ⟨o₀, ho₀, hR⟩ := forall₂_exists_mem_left
      (match_orders_forall₂ incoming ((getLevel d p).getD [])) o h1.1
    exact ⟨h2, o₀, ho₀, hR.1, hR.2.1, hR.2.2.1⟩
  constructor
  · exact nodup_keys_levelsAfter h.nodup
  · intro pl hpl
    rcases mem_levelsAfter h.nodup hpl with h1 | h1
    · exact h.nonnil pl h1
    · exact h1.2.2
  · intro pl hpl o ho
    rcases mem_levelsAfter h.nodup hpl with h1 | h1
    · exact h.pos pl h1 o ho
    · rw [h1.2.1] at ho
      exact (survFacts o ho).1
  · intro pl hpl o ho
    rcases mem_levelsAfter h.nodup hpl with h1 | h1
    · exact h.priceEq pl h1 o ho
    · rw [h1.2.1] at ho
      obtain ⟨-, o₀, ho₀, hp, -, -⟩ := survFacts o ho
      obtain ⟨lvl, hg, ho₀'⟩ := mem_getD_getLevel ho₀
      rw [hp, h.priceEq (p, lvl) (getLevel_mem hg) o₀ ho₀', h1.1]
  · intro pl hpl o ho
    rcases mem_levelsAfter h.nodup hpl with h1 | h1
    · exact h.idLe pl h1 o ho
    · rw [h1.2.1] at ho
      obtain ⟨-, o₀, ho₀, -, -, hid⟩ := survFacts o ho
      obtain ⟨lvl, hg, ho₀'⟩ := mem_getD_getLevel ho₀
      rw [oid_congr hid]
      exact h.idLe (p, lvl) (getLevel_mem hg) o₀ ho₀'
  · intro pl hpl
    rcases mem_levelsAfter h.nodup hpl with h1 | h1
    · exact h.idSorted pl h1
    · rw [h1.2.1]
      have hlvl : ((getLevel d p).getD []).Pairwise (fun a b => oid a < oid b) := by
        cases hg : getLevel d p with
        | none => simp
        | some lvl => simpa using h.idSorted (p, lvl) (getLevel_mem hg)
      have hpair : ((match_orders incoming ((getLevel d p).getD [])).2.1).Pairwise
          (fun a b => oid a < oid b) :=
        pairwise_of_forall₂
          (fun a a' b b' hR hR' hS => by
            rw [oid_congr hR.2.2.1, oid_congr hR'.2.2.1]
            exact hS)
          (match_orders_forall₂ incoming ((getLevel d p).getD [])) hlvl
      exact List.Pairwise.sublist (List.filter_sublist _) hpair

theorem sideInv_match_prices {incoming : Order} {levels : Dict} {prices : List ℚ} {nid : ℕ}
    (h : SideInv levels nid) : SideInv (match_prices incoming levels prices).2.1 nid := by
  induction prices generalizing incoming levels with
  | nil => exact h
  | cons p rest ih =>
    by_cases hc : incoming.quantity = 0 ∨ price_doesnt_match incoming p = true
    · rw [match_prices_stop rest hc]
      exact h
    · rw [match_prices_go rest hc]
      exact ih (sideInv_levelsAfter h)

theorem sideInv_dictAppend {d : Dict} {n m : ℕ} {p : ℚ} {o : Order}
    (h : SideInv d n) (hop : o.price = p) (hoq : 0 < o.quantity)
    (hn : n < oid o) (hm : oid o ≤ m) :
    SideInv (dictAppend d p o) m := by
  have hnm : n ≤ m := le_trans (le_of_lt hn) hm
  constructor
  · exact nodup_keys_dictAppend h.nodup
  · intro pl hpl
    rcases mem_dictAppend hpl with h1 | h1
    · exact h.nonnil pl h1
    · rw [h1.2]
      simp
  · intro pl hpl o₁ ho₁
    rcases mem_dictAppend hpl with h1 | h1
    · exact h.pos pl h1 o₁ ho₁
    · rw [h1.2] at ho₁
      rcases List.mem_append.1 ho₁ with h2 | h2
      · obtain ⟨lvl, hg, h3⟩ := mem_getD_getLevel h2
        exact h.pos (p, lvl) (getLevel_mem hg) o₁ h3
      · rw [List.mem_singleton.1 h2]
        exact hoq
  · intro pl hpl o₁ ho₁
    rcases mem_dictAppend hpl with h1 | h1
    · exact h.priceEq pl h1 o₁ ho₁
    · rw [h1.2] at ho₁
      rcases List.mem_append.1 ho₁ with h2 | h2
      · obtain ⟨lvl, hg, h3⟩ := mem_getD_getLevel h2
        rw [h.priceEq (p, lvl) (getLevel_mem hg) o₁ h3, h1.1]
      · rw [List.mem_singleton.1 h2, hop, h1.1]
  · intro pl hpl o₁ ho₁
    rcases mem_dictAppend hpl with h1 | h1
    · exact (h.idLe pl h1 o₁ ho₁).trans hnm
    · rw [h1.2] at ho₁
      rcases List.mem_append.1 ho₁ with h2 | h2
      · obtain ⟨lvl, hg, h3⟩ := mem_getD_getLevel h2
        exact (h.idLe (p, lvl) (getLevel_mem hg) o₁ h3).trans hnm
      · rw [List.mem_singleton.1 h2]
        exact hm
  · intro pl hpl
    rcases mem_dictAppend hpl with h1 | h1
    · exact h.idSorted pl h1
    · rw [h1.2]
      apply List.pairwise_append.2
      refine ⟨?_, List.pairwise_singleton _ _, ?_⟩
      · cases hg : getLevel d p with
        | none => simp
        | some lvl => simpa using h.idSorted (p, lvl) (getLevel_mem hg)
      · intro a ha b hb
        rw [List.mem_singleton.1 hb]
        obtain ⟨lvl, hg, h3⟩ := mem_getD_getLevel ha
        exact lt_of_le_of_lt (h.idLe (p, lvl) (getLevel_mem hg) a h3) hn

theorem price_doesnt_match_buy {o : Order} (h : o.type = OType.BUY) (bp : ℚ) :
    price_doesnt_match o bp = decide (o.price < bp) := by
  unfold price_doesnt_match
  rw [if_pos h]

theorem price_doesnt_match_sell {o : Order} (h : o.type = OType.SELL) (bp : ℚ) :
    price_doesnt_match o bp = decide (bp < o.price) := by
  unfold price_doesnt_match
  rw [if_neg (by rw [h]; intro hc; exact OType.noConfusion hc)]

theorem sortAsc_nodup {l : List ℚ} (h : l.Nodup) : (sortAsc l).Nodup :=
  (List.perm_insertionSort _ l).symm.nodup h

theorem sortDesc_nodup {l : List ℚ} (h : l.Nodup) : (sortDesc l).Nodup :=
  (List.perm_insertionSort _ l).symm.nodup h

theorem mem_sortAsc {l : List ℚ} {a : ℚ} (h : a ∈ l) : a ∈ sortAsc l :=
  (List.perm_insertionSort _ l).mem_iff.2 h

theorem mem_sortDesc {l : List ℚ} {a : ℚ} (h : a ∈ l) : a ∈ sortDesc l :=
  (List.perm_insertionSort _ l).mem_iff.2 h

theorem sortAsc_pairwise (l : List ℚ) : (sortAsc l).Pairwise (· ≤ ·) :=
  List.sorted_insertionSort _ l

theorem sortDesc_pairwise (l : List ℚ) : (sortDesc l).Pairwise (· ≥ ·) :=
  List.sorted_insertionSort _ l

theorem process_match_buy_rest {b : OrderBook} {incoming : Order}
    (ht : incoming.type = OType.BUY)
    (hq : 0 < (match_prices incoming b.offers (sortAsc (keys b.offers))).1.quantity) :
    process_match b incoming =
      { b with
        offers := (match_prices incoming b.offers (sortAsc (keys b.offers))).2.1,
        trades := b.trades ++ (match_prices incoming b.offers (sortAsc (keys b.offers))).2.2,
        bids := dictAppend b.bids
          (match_prices incoming b.offers (sortAsc (keys b.offers))).1.price
          (match_prices incoming b.offers (sortAsc (keys b.offers))).1 } := by
  have hsell : ¬incoming.type = OType.SELL := by
    rw [ht]
    intro hc
    exact OType.noConfusion hc
  have htype : (match_prices incoming b.offers (sortAsc (keys b.offers))).1.type = OType.BUY :=
    (match_prices_fst_fields _ _ _).2.1.trans ht
  simp only [process_match, process_match_core, if_neg hsell]
  rw [if_pos hq, if_pos htype]

theorem process_match_buy_fill {b : OrderBook} {incoming : Order}
    (ht : incoming.type = OType.BUY)
    (hq : ¬0 < (match_prices incoming b.offers (sortAsc (keys b.offers))).1.quantity) :
    process_match b incoming =
      { b with
        offers := (match_prices incoming b.offers (sortAsc (keys b.offers))).2.1,
        trades := b.trades ++ (match_prices incoming b.offers (sortAsc (keys b.offers))).2.2 } := by
  have hsell : ¬incoming.type = OType.SELL := by
    rw [ht]
    intro hc
    exact OType.noConfusion hc
  simp only [process_match, process_match_core, if_neg hsell]
  rw [if_neg hq]

theorem process_match_sell_rest {b : OrderBook} {incoming : Order}
    (ht : incoming.type = OType.SELL)
    (hq : 0 < (match_prices incoming b.bids (sortDesc (keys b.bids))).1.quantity) :
    process_match b incoming =
      { b with
        bids := (match_prices incoming b.bids (sortDesc (keys b.bids))).2.1,
        trades := b.trades ++ (match_prices incoming b.bids (sortDesc (keys b.bids))).2.2,
        offers := dictAppend b.offers
          (match_prices incoming b.bids (sortDesc (keys b.bids))).1.price
          (match_prices incoming b.bids (sortDesc (keys b.bids))).1 } := by
  have htype : (match_prices incoming b.bids (sortDesc (keys b.bids))).1.type = OType.SELL :=
    (match_prices_fst_fields _ _ _).2.1.trans ht
  have hnotbuy : ¬(match_prices incoming b.bids (sortDesc (keys b.bids))).1.type = OType.BUY := by
    rw [htype]
    intro hc
    exact OType.noConfusion hc
  simp only [process_match, process_match_core, if_pos ht]
  rw [if_pos hq, if_neg hnotbuy]

theorem process_match_sell_fill {b : OrderBook} {incoming : Order}
    (ht : incoming.type = OType.SELL)
    (hq : ¬0 < (match_prices incoming b.bids (sortDesc (keys b.bids))).1.quantity) :
    process_match b incoming =
      { b with
        bids := (match_prices incoming b.bids (sortDesc (keys b.bids))).2.1,
        trades := b.trades ++ (match_prices incoming b.bids (sortDesc (keys b.bids))).2.2 } := by
  simp only [process_match, process_match_core, if_pos ht]
  rw [if_neg hq]

theorem bookInv_process_match {b : OrderBook} {incoming : Order} {n : ℕ}
    (hbids : SideInv b.bids n) (hoffers : SideInv b.offers n)
    (hcross : ∀ p ∈ keys b.bids, ∀ q ∈ keys b.offers, p < q)
    (hq : 0 < incoming.quantity) (hn : n < oid incoming) (hm : oid incoming ≤ b.order_id) :
    BookInv (process_match b incoming) := by
  have hnm : n ≤ b.order_id := le_trans (Nat.le_of_lt hn) hm
  by_cases ht : incoming.type = OType.BUY
  · have hfields := match_prices_fst_fields incoming b.offers (sortAsc (keys b.offers))
    have hoid : oid (match_prices incoming b.offers (sortAsc (keys b.offers))).1
        = oid incoming := oid_congr hfields.2.2
    have hoffers' :
        SideInv (match_prices incoming b.offers (sortAsc (keys b.offers))).2.1 b.order_id :=
      (sideInv_match_prices hoffers).mono hnm
    by_cases hrq : 0 < (match_prices incoming b.offers (sortAsc (keys b.offers))).1.quantity
    · rw [process_match_buy_rest ht hrq]
      refine ⟨?_, hoffers', ?_⟩
      · exact sideInv_dictAppend hbids rfl hrq (by rw [hoid]; exact hn) (by rw [hoid]; exact hm)
      · intro p hp q hq'
        have hq'' : q ∈ keys b.offers := match_prices_keys_subset hq'
        rcases mem_keys_dictAppend.1 hp with hp1 | hp1
        · exact hcross p hp1 q hq''
        · have hmono : (sortAsc (keys b.offers)).Pairwise (fun a c =>
              price_doesnt_match incoming a = true →
              price_doesnt_match incoming c = true) :=
            (sortAsc_pairwise _).imp (fun hab => by
              rw [price_doesnt_match_buy ht, price_doesnt_match_buy ht]
              intro h1
              exact decide_eq_true (lt_of_lt_of_le (of_decide_eq_true h1) hab))
          have hcons := match_prices_consumed (le_of_lt hq) hoffers.nodup
            (sortAsc_nodup hoffers.nodup) (fun k hk => mem_sortAsc hk) hmono hrq q hq'
          rw [price_doesnt_match_buy ht q] at hcons
          rw [hp1, hfields.1]
          exact of_decide_eq_true hcons
    · rw [process_match_buy_fill ht hrq]
      exact ⟨hbids.mono hnm, hoffers',
        fun p hp q hq' => hcross p hp q (match_prices_keys_subset hq')⟩
  · have ht' : incoming.type = OType.SELL := by
      cases hty : incoming.type
      · exact absurd hty ht
      · rfl
    have hfields := match_prices_fst_fields incoming b.bids (sortDesc (keys b.bids))
    have hoid : oid (match_prices incoming b.bids (sortDesc (keys b.bids))).1
        = oid incoming := oid_congr hfields.2.2
    have hbids' :
        SideInv (match_prices incoming b.bids (sortDesc (keys b.bids))).2.1 b.order_id :=
      (sideInv_match_prices hbids).mono hnm
    by_cases hrq : 0 < (match_prices incoming b.bids (sortDesc (keys b.bids))).1.quantity
    · rw [process_match_sell_rest ht' hrq]
      refine ⟨hbids', ?_, ?_⟩
      · exact sideInv_dictAppend hoffers rfl hrq (by rw [hoid]; exact hn) (by rw [hoid]; exact hm)
      · intro p hp q hq'
        have hp'' : p ∈ keys b.bids := match_prices_keys_subset hp
        rcases mem_keys_dictAppend.1 hq' with hq1 | hq1
        · exact hcross p hp'' q hq1
        · have hmono : (sortDesc (keys b.bids)).Pairwise (fun a c =>
              price_doesnt_match incoming a = true →
              price_doesnt_match incoming c = true) :=
            (sortDesc_pairwise _).imp (fun hab => by
              rw [price_doesnt_match_sell ht', price_doesnt_match_sell ht']
              intro h1
              exact decide_eq_true (lt_of_le_of_lt hab (of_decide_eq_true h1)))
          have hcons := match_prices_consumed (le_of_lt hq) hbids.nodup
            (sortDesc_nodup hbids.nodup) (fun k hk => mem_sortDesc hk) hmono hrq p hp
          rw [price_doesnt_match_sell ht' p] at hcons
          rw [hq1, hfields.1]
          exact of_decide_eq_true hcons
    · rw [process_match_sell_fill ht' hrq]
      exact ⟨hbids', hoffers.mono hnm,
        fun p hp q hq' => hcross p (match_prices_keys_subset hp) q hq'⟩

theorem process_order_eq (b : OrderBook) (now : ℕ) (o : Order) :
    process_order b now o =
      if o.type = OType.BUY then
        if min_offer b ≤ (o.price : WithTop ℚ) ∧ b.offers ≠ [] then
          process_match { b with order_id := b.order_id + 1 } (stamp b now o)
        else { b with
          order_id := b.order_id + 1,
          bids := dictAppend b.bids o.price (stamp b now o) }
      else
        if o.price ≤ max_bid b ∧ b.bids ≠ [] then
          process_match { b with order_id := b.order_id + 1 } (stamp b now o)
        else { b with
          order_id := b.order_id + 1,
          offers := dictAppend b.offers o.price (stamp b now o) } := rfl

theorem bookInv_initBook : BookInv initBook := by
  refine ⟨⟨?_, ?_, ?_, ?_, ?_, ?_⟩, ⟨?_, ?_, ?_, ?_, ?_, ?_⟩, ?_⟩ <;> simp [initBook]

theorem bookInv_process_order {b : OrderBook} {o : Order} (hb : BookInv b)
    (ho : validOrder o) (now : ℕ) : BookInv (process_order b now o) := by
  rw [process_order_eq]
  have hstq : 0 < (stamp b now o).quantity := ho.2
  have hstid : oid (stamp b now o) = b.order_id + 1 := rfl
  by_cases ht : o.type = OType.BUY
  · rw [if_pos ht]
    by_cases hc : min_offer b ≤ (o.price : WithTop ℚ) ∧ b.offers ≠ []
    · rw [if_pos hc]
      exact bookInv_process_match hb.bidsInv hb.offersInv hb.uncrossed hstq
        (by rw [hstid]; exact Nat.lt_succ_self _) (by rw [hstid])
    · rw [if_neg hc]
      have hlt : ∀ q ∈ keys b.offers, o.price < q := by
        intro q hq'
        have hne : b.offers ≠ [] := by
          intro he
          rw [he] at hq'
          simp at hq'
        have hA : ¬min_offer b ≤ (o.price : WithTop ℚ) := fun hA => hc ⟨hA, hne⟩
        have h2 : (o.price : WithTop ℚ) < min_offer b := lt_of_not_le hA
        have h3 : min_offer b ≤ (q : WithTop ℚ) := List.minimum_le_of_mem' hq'
        exact_mod_cast lt_of_lt_of_le h2 h3
      refine ⟨?_, hb.offersInv.mono (Nat.le_succ _), ?_⟩
      · exact sideInv_dictAppend hb.bidsInv rfl hstq
          (by rw [hstid]; exact Nat.lt_succ_self _) (by rw [hstid])
      · intro p hp q hq'
        rcases mem_keys_dictAppend.1 hp with hp1 | hp1
        · exact hb.uncrossed p hp1 q hq'
        · rw [hp1]
          exact hlt q hq'
  · rw [if_neg ht]
    by_cases hc : o.price ≤ max_bid b ∧ b.bids ≠ []
    · rw [if_pos hc]
      exact bookInv_process_match hb.bidsInv hb.offersInv hb.uncrossed hstq
        (by rw [hstid]; exact Nat.lt_succ_self _) (by rw [hstid])
    · rw [if_neg hc]
      have hlt : ∀ p ∈ keys b.bids, p < o.price := by
        intro p hp'
        have hne : b.bids ≠ [] := by
          intro he
          rw [he] at hp'
          simp at hp'
        have hA : ¬o.price ≤ max_bid b := fun hA => hc ⟨hA, hne⟩
        have h2 : max_bid b < o.price := lt_of_not_le hA
        have h3 : (p : WithBot ℚ) ≤ (keys b.bids).maximum := List.le_maximum_of_mem' hp'
        cases hmax : (keys b.bids).maximum with
        | bot =>
          rw [List.maximum_eq_bot.1 hmax] at hp'
          simp at hp'
        | coe m =>
          rw [hmax] at h3
          have h4 : p ≤ m := by exact_mod_cast h3
          have h5 : max_bid b = m := by
            unfold max_bid
            rw [hmax]
            rfl
          rw [h5] at h2
          exact lt_of_le_of_lt h4 h2
      refine ⟨hb.bidsInv.mono (Nat.le_succ _), ?_, ?_⟩
      · exact sideInv_dictAppend hb.offersInv rfl hstq
          (by rw [hstid]; exact Nat.lt_succ_self _) (by rw [hstid])
      · intro p hp q hq'
        rcases mem_keys_dictAppend.1 hq' with hq1 | hq1
        · exact hb.uncrossed p hp q hq1
        · rw [hq1]
          exact hlt p hp

theorem bookInv_processAll {b : OrderBook} {l : List (ℕ × Order)} (hb : BookInv b)
    (hl : ∀ x ∈ l, validOrder x.2) : BookInv (processAll b l) := by
  induction l generalizing b with
  | nil => exact hb
  | cons x rest ih =>
    obtain ⟨now, o⟩ := x
    exact ih (bookInv_process_order hb (hl (now, o) (List.mem_cons_self _ _)) now)
      (fun y hy => hl y (List.mem_cons_of_mem _ hy))

theorem process_match_core_buy {b : OrderBook} {incoming : Order}
    (ht : incoming.type = OType.BUY) :
    process_match_core b incoming
      = match_prices incoming b.offers (sortAsc (keys b.offers)) := by
  have hsell : ¬incoming.type = OType.SELL := by
    rw [ht]
    intro hc
    exact OType.noConfusion hc
  simp only [process_match_core, if_neg hsell]

theorem process_match_core_sell {b : OrderBook} {incoming : Order}
    (ht : incoming.type = OType.SELL) :
    process_match_core b incoming
      = match_prices incoming b.bids (sortDesc (keys b.bids)) := by
  simp only [process_match_core, if_pos ht]

theorem process_match_trades (b : OrderBook) (incoming : Order) :
    (process_match b incoming).trades
      = b.trades ++ (process_match_core b incoming).2.2 := by
  simp only [process_match]
  by_cases hs : incoming.type = OType.SELL
  · rw [if_pos hs]
    by_cases h0 : 0 < (process_match_core b incoming).1.quantity
    · rw [if_pos h0]
      by_cases hbuy : (process_match_core b incoming).1.type = OType.BUY
      · rw [if_pos hbuy]
      · rw [if_neg hbuy]
    · rw [if_neg h0]
  · rw [if_neg hs]
    by_cases h0 : 0 < (process_match_core b incoming).1.quantity
    · rw [if_pos h0]
      by_cases hbuy : (process_match_core b incoming).1.type = OType.BUY
      · rw [if_pos hbuy]
      · rw [if_neg hbuy]
    · rw [if_neg h0]

theorem conservation_process_order {b : OrderBook} (hb : BookInv b) {o : Order}
    (ho : validOrder o) (now : ℕ) :
    o.quantity = remainingAfter b now o +
      ((emittedTrades b now o).map Trade.quantity).sum := by
  by_cases ht : o.type = OType.BUY
  · have ht' : (stamp b now o).type = OType.BUY := ht
    by_cases hc : min_offer b ≤ (o.price : WithTop ℚ) ∧ b.offers ≠ []
    · have hre : remainingAfter b now o
          = (match_prices (stamp b now o) b.offers (sortAsc (keys b.offers))).1.quantity := by
        unfold remainingAfter
        have hc' : min_offer { b with order_id := b.order_id + 1 }
            ≤ ((stamp b now o).price : WithTop ℚ)
            ∧ ({ b with order_id := b.order_id + 1 } : OrderBook).offers ≠ [] := hc
        rw [if_pos ht', if_pos hc', process_match_core_buy ht']
      have hem : emittedTrades b now o
          = (match_prices (stamp b now o) b.offers (sortAsc (keys b.offers))).2.2 := by
        unfold emittedTrades
        rw [process_order_eq, if_pos ht, if_pos hc, process_match_trades,
          process_match_core_buy ht']
        exact List.drop_left _ _
      rw [hre, hem]
      exact match_prices_conservation (le_of_lt (show 0 < (stamp b now o).quantity from ho.2))
        hb.offersInv.nodup (fun pl hpl o₁ ho₁ => le_of_lt (hb.offersInv.pos pl hpl o₁ ho₁))
    · have hre : remainingAfter b now o = o.quantity := by
        unfold remainingAfter
        have hc' : ¬(min_offer { b with order_id := b.order_id + 1 }
            ≤ ((stamp b now o).price : WithTop ℚ)
            ∧ ({ b with order_id := b.order_id + 1 } : OrderBook).offers ≠ []) := hc
        rw [if_pos ht', if_neg hc']
        rfl
      have hem : emittedTrades b now o = [] := by
        unfold emittedTrades
        rw [process_order_eq, if_pos ht, if_neg hc]
        exact List.drop_length _
      rw [hre, hem]
      simp
  · have ht' : ¬(stamp b now o).type = OType.BUY := ht
    by_cases hc : o.price ≤ max_bid b ∧ b.bids ≠ []
    · have hts : (stamp b now o).type = OType.SELL := by
        cases hty : o.type
        · exact absurd hty ht
        · exact hty
      have hre : remainingAfter b now o
          = (match_prices (stamp b now o) b.bids (sortDesc (keys b.bids))).1.quantity := by
        unfold remainingAfter
        have hc' : (stamp b now o).price ≤ max_bid { b with order_id := b.order_id + 1 }
            ∧ ({ b with order_id := b.order_id + 1 } : OrderBook).bids ≠ [] := hc
        rw [if_neg ht', if_pos hc', process_match_core_sell hts]
      have hem : emittedTrades b now o
          = (match_prices (stamp b now o) b.bids (sortDesc (keys b.bids))).2.2 := by
        unfold emittedTrades
        rw [process_order_eq, if_neg ht, if_pos hc, process_match_trades,
          process_match_core_sell hts]
        exact List.drop_left _ _
      rw [hre, hem]
      exact match_prices_conservation (le_of_lt (show 0 < (stamp b now o).quantity from ho.2))
        hb.bidsInv.nodup (fun pl hpl o₁ ho₁ => le_of_lt (hb.bidsInv.pos pl hpl o₁ ho₁))
    · have hre : remainingAfter b now o = o.quantity := by
        unfold remainingAfter
        have hc' : ¬((stamp b now o).price ≤ max_bid { b with order_id := b.order_id + 1 }
            ∧ ({ b with order_id := b.order_id + 1 } : OrderBook).bids ≠ []) := hc
        rw [if_neg ht', if_neg hc']
        rfl
      have hem : emittedTrades b now o = [] := by
        unfold emittedTrades
        rw [process_order_eq, if_neg ht, if_neg hc]
        exact List.drop_length _
      rw [hre, hem]
      simp

/-! ### Canonical forms of one `process_order` call -/

theorem marketable_iff_buy {b : OrderBook} {o : Order} (ht : o.type = OType.BUY) :
    marketable b o ↔ (min_offer b ≤ (o.price : WithTop ℚ) ∧ b.offers ≠ []) := by
  unfold marketable min_offer
  rw [if_pos ht]
  exact and_comm

theorem marketable_iff_sell {b : OrderBook} {o : Order} (ht : ¬o.type = OType.BUY) :
    marketable b o ↔ (o.price ≤ max_bid b ∧ b.bids ≠ []) := by
  unfold marketable max_bid
  rw [if_neg ht]
  constructor
  · rintro ⟨hne, hle⟩
    refine ⟨?_, hne⟩
    cases hmax : (keys b.bids).maximum with
    | bot =>
      rw [hmax] at hle
      exact absurd hle (WithBot.not_coe_le_bot _)
    | coe m =>
      rw [hmax] at hle
      rw [WithBot.unbot'_coe]
      exact_mod_cast hle
  · rintro ⟨hle, hne⟩
    refine ⟨hne, ?_⟩
    cases hmax : (keys b.bids).maximum with
    | bot =>
      exact absurd (List.map_eq_nil_iff.1 (List.maximum_eq_bot.1 hmax)) hne
    | coe m =>
      rw [hmax, WithBot.unbot'_coe] at hle
      exact_mod_cast hle

theorem remainingAfter_buy_market {b : OrderBook} {now : ℕ} {o : Order}
    (ht : o.type = OType.BUY)
    (hc : min_offer b ≤ (o.price : WithTop ℚ) ∧ b.offers ≠ []) :
    remainingAfter b now o
      = (match_prices (stamp b now o) b.offers (sortAsc (keys b.offers))).1.quantity := by
  have ht' : (stamp b now o).type = OType.BUY := ht
  unfold remainingAfter
  have hc' : min_offer { b with order_id := b.order_id + 1 }
      ≤ ((stamp b now o).price : WithTop ℚ)
      ∧ ({ b with order_id := b.order_id + 1 } : OrderBook).offers ≠ [] := hc
  rw [if_pos ht', if_pos hc', process_match_core_buy ht']

theorem remainingAfter_sell_market {b : OrderBook} {now : ℕ} {o : Order}
    (ht : ¬o.type = OType.BUY)
    (hc : o.price ≤ max_bid b ∧ b.bids ≠ []) :
    remainingAfter b now o
      = (match_prices (stamp b now o) b.bids (sortDesc (keys b.bids))).1.quantity := by
  have ht' : ¬(stamp b now o).type = OType.BUY := ht
  have hts : (stamp b now o).type = OType.SELL := by
    cases hty : o.type
    · exact absurd hty ht
    · exact hty
  unfold remainingAfter
  have hc' : (stamp b now o).price ≤ max_bid { b with order_id := b.order_id + 1 }
      ∧ ({ b with order_id := b.order_id + 1 } : OrderBook).bids ≠ [] := hc
  rw [if_neg ht', if_pos hc', process_match_core_sell hts]

theorem remainingAfter_buy_rest {b : OrderBook} {now : ℕ} {o : Order}
    (ht : o.type = OType.BUY)
    (hc : ¬(min_offer b ≤ (o.price : WithTop ℚ) ∧ b.offers ≠ [])) :
    remainingAfter b now o = o.quantity := by
  have ht' : (stamp b now o).type = OType.BUY := ht
  unfold remainingAfter
  have hc' : ¬(min_offer { b with order_id := b.order_id + 1 }
      ≤ ((stamp b now o).price : WithTop ℚ)
      ∧ ({ b with order_id := b.order_id + 1 } : OrderBook).offers ≠ []) := hc
  rw [if_pos ht', if_neg hc']
  rfl

theorem remainingAfter_sell_rest {b : OrderBook} {now : ℕ} {o : Order}
    (ht : ¬o.type = OType.BUY)
    (hc : ¬(o.price ≤ max_bid b ∧ b.bids ≠ [])) :
    remainingAfter b now o = o.quantity := by
  have ht' : ¬(stamp b now o).type = OType.BUY := ht
  unfold remainingAfter
  have hc' : ¬((stamp b now o).price ≤ max_bid { b with order_id := b.order_id + 1 }
      ∧ ({ b with order_id := b.order_id + 1 } : OrderBook).bids ≠ []) := hc
  rw [if_neg ht', if_neg hc']
  rfl

theorem emittedTrades_buy_market {b : OrderBook} {now : ℕ} {o : Order}
    (ht : o.type = OType.BUY)
    (hc : min_offer b ≤ (o.price : WithTop ℚ) ∧ b.offers ≠ []) :
    emittedTrades b now o
      = (match_prices (stamp b now o) b.offers (sortAsc (keys b.offers))).2.2 := by
  have ht' : (stamp b now o).type = OType.BUY := ht
  unfold emittedTrades
  rw [process_order_eq, if_pos ht, if_pos hc, process_match_trades,
    process_match_core_buy ht']
  exact List.drop_left _ _

theorem emittedTrades_sell_market {b : OrderBook} {now : ℕ} {o : Order}
    (ht : ¬o.type = OType.BUY)
    (hc : o.price ≤ max_bid b ∧ b.bids ≠ []) :
    emittedTrades b now o
      = (match_prices (stamp b now o) b.bids (sortDesc (keys b.bids))).2.2 := by
  have hts : (stamp b now o).type = OType.SELL := by
    cases hty : o.type
    · exact absurd hty ht
    · exact hty
  unfold emittedTrades
  rw [process_order_eq, if_neg ht, if_pos hc, process_match_trades,
    process_match_core_sell hts]
  exact List.drop_left _ _

theorem emittedTrades_buy_rest {b : OrderBook} {now : ℕ} {o : Order}
    (ht : o.type = OType.BUY)
    (hc : ¬(min_offer b ≤ (o.price : WithTop ℚ) ∧ b.offers ≠ [])) :
    emittedTrades b now o = [] := by
  unfold emittedTrades
  rw [process_order_eq, if_pos ht, if_neg hc]
  exact List.drop_length _

theorem emittedTrades_sell_rest {b : OrderBook} {now : ℕ} {o : Order}
    (ht : ¬o.type = OType.BUY)
    (hc : ¬(o.price ≤ max_bid b ∧ b.bids ≠ [])) :
    emittedTrades b now o = [] := by
  unfold emittedTrades
  rw [process_order_eq, if_neg ht, if_neg hc]
  exact List.drop_length _

theorem process_order_buy_market_rest {b : OrderBook} {now : ℕ} {o : Order}
    (ht : o.type = OType.BUY)
    (hc : min_offer b ≤ (o.price : WithTop ℚ) ∧ b.offers ≠ [])
    (hrq : 0 < (match_prices (stamp b now o) b.offers (sortAsc (keys b.offers))).1.quantity) :
    process_order b now o = { b with
      order_id := b.order_id + 1,
      offers := (match_prices (stamp b now o) b.offers (sortAsc (keys b.offers))).2.1,
      trades := b.trades
        ++ (match_prices (stamp b now o) b.offers (sortAsc (keys b.offers))).2.2,
      bids := dictAppend b.bids
        (match_prices (stamp b now o) b.offers (sortAsc (keys b.offers))).1.price
        (match_prices (stamp b now o) b.offers (sortAsc (keys b.offers))).1 } := by
  rw [process_order_eq, if_pos ht, if_pos hc]
  exact (@process_match_buy_rest { b with order_id := b.order_id + 1 } (stamp b now o)
    (show (stamp b now o).type = OType.BUY from ht) hrq).trans rfl

theorem process_order_buy_market_fill {b : OrderBook} {now : ℕ} {o : Order}
    (ht : o.type = OType.BUY)
    (hc : min_offer b ≤ (o.price : WithTop ℚ) ∧ b.offers ≠ [])
    (hrq : ¬0 < (match_prices (stamp b now o) b.offers (sortAsc (keys b.offers))).1.quantity) :
    process_order b now o = { b with
      order_id := b.order_id + 1,
      offers := (match_prices (stamp b now o) b.offers (sortAsc (keys b.offers))).2.1,
      trades := b.trades
        ++ (match_prices (stamp b now o) b.offers (sortAsc (keys b.offers))).2.2 } := by
  rw [process_order_eq, if_pos ht, if_pos hc]
  exact (@process_match_buy_fill { b with order_id := b.order_id + 1 } (stamp b now o)
    (show (stamp b now o).type = OType.BUY from ht) hrq).trans rfl

theorem process_order_sell_market_rest {b : OrderBook} {now : ℕ} {o : Order}
    (ht : ¬o.type = OType.BUY)
    (hc : o.price ≤ max_bid b ∧ b.bids ≠ [])
    (hrq : 0 < (match_prices (stamp b now o) b.bids (sortDesc (keys b.bids))).1.quantity) :
    process_order b now o = { b with
      order_id := b.order_id + 1,
      bids := (match_prices (stamp b now o) b.bids (sortDesc (keys b.bids))).2.1,
      trades := b.trades
        ++ (match_prices (stamp b now o) b.bids (sortDesc (keys b.bids))).2.2,
      offers := dictAppend b.offers
        (match_prices (stamp b now o) b.bids (sortDesc (keys b.bids))).1.price
        (match_prices (stamp b now o) b.bids (sortDesc (keys b.bids))).1 } := by
  have hts : (stamp b now o).type = OType.SELL := by
    cases hty : o.type
    · exact absurd hty ht
    · exact hty
  rw [process_order_eq, if_neg ht, if_pos hc]
  exact (@process_match_sell_rest { b with order_id := b.order_id + 1 } (stamp b now o)
    hts hrq).trans rfl

theorem process_order_sell_market_fill {b : OrderBook} {now : ℕ} {o : Order}
    (ht : ¬o.type = OType.BUY)
    (hc : o.price ≤ max_bid b ∧ b.bids ≠ [])
    (hrq : ¬0 < (match_prices (stamp b now o) b.bids (sortDesc (keys b.bids))).1.quantity) :
    process_order b now o = { b with
      order_id := b.order_id + 1,
      bids := (match_prices (stamp b now o) b.bids (sortDesc (keys b.bids))).2.1,
      trades := b.trades
        ++ (match_prices (stamp b now o) b.bids (sortDesc (keys b.bids))).2.2 } := by
  have hts : (stamp b now o).type = OType.SELL := by
    cases hty : o.type
    · exact absurd hty ht
    · exact hty
  rw [process_order_eq, if_neg ht, if_pos hc]
  exact (@process_match_sell_fill { b with order_id := b.order_id + 1 } (stamp b now o)
    hts hrq).trans rfl

/-! ### Claim theorems -/

/-- C1: for every sequence of orders with positive price and positive
integer quantity processed from the empty book, the book is never left
crossed: whenever both side indices are non-empty after the calls,
`max_bid < min_offer`. -/
theorem spec_c1_no_crossed_book (l : List (ℕ × Order))
    (hl : ∀ x ∈ l, validOrder x.2)
    (hbids : (processAll initBook l).bids ≠ [])
    (hoffers : (processAll initBook l).offers ≠ []) :
    (max_bid (processAll initBook l) : WithTop ℚ)
      < min_offer (processAll initBook l) := by
  have hinv := bookInv_processAll bookInv_initBook hl
  have hkb : keys (processAll initBook l).bids ≠ [] := by
    intro he
    exact hbids (List.map_eq_nil_iff.1 he)
  have hko : keys (processAll initBook l).offers ≠ [] := by
    intro he
    exact hoffers (List.map_eq_nil_iff.1 he)
  cases hmax : (keys (processAll initBook l).bids).maximum with
  | bot => exact absurd (List.maximum_eq_bot.1 hmax) hkb
  | coe mb =>
    cases hmin : (keys (processAll initBook l).offers).minimum with
    | top => exact absurd (List.minimum_eq_top.1 hmin) hko
    | coe mo =>
      have hmb : mb ∈ keys (processAll initBook l).bids := List.maximum_mem hmax
      have hmo : mo ∈ keys (processAll initBook l).offers := List.minimum_mem hmin
      have hlt := hinv.uncrossed mb hmb mo hmo
      have h1 : max_bid (processAll initBook l) = mb := by
        unfold max_bid
        rw [hmax, WithBot.unbot'_coe]
      have h2 : min_offer (processAll initBook l) = (mo : WithTop ℚ) := by
        unfold min_offer
        rw [hmin]
      rw [h1, h2]
      exact_mod_cast hlt

theorem spec_c1_no_crossed_book_witness :
    (∀ x ∈ [((0 : ℕ), { type := OType.BUY, price := 12, quantity := 10 : Order }),
            ((1 : ℕ), { type := OType.SELL, price := 14, quantity := 5 : Order })],
        validOrder x.2) ∧
    (processAll initBook
        [((0 : ℕ), { type := OType.BUY, price := 12, quantity := 10 : Order }),
         ((1 : ℕ), { type := OType.SELL, price := 14, quantity := 5 : Order })]).bids ≠ [] ∧
    (processAll initBook
        [((0 : ℕ), { type := OType.BUY, price := 12, quantity := 10 : Order }),
         ((1 : ℕ), { type := OType.SELL, price := 14, quantity := 5 : Order })]).offers ≠ [] ∧
    (max_bid (processAll initBook
        [((0 : ℕ), { type := OType.BUY, price := 12, quantity := 10 : Order }),
         ((1 : ℕ), { type := OType.SELL, price := 14, quantity := 5 : Order })]) : WithTop ℚ)
      < min_offer (processAll initBook
        [((0 : ℕ), { type := OType.BUY, price := 12, quantity := 10 : Order }),
         ((1 : ℕ), { type := OType.SELL, price := 14, quantity := 5 : Order })]) :=
  ⟨by decide, by decide, by decide,
   spec_c1_no_crossed_book _ (by decide) (by decide) (by decide)⟩

/-- C6: after processing any valid order sequence from the empty book,
every price key present in either side index maps to a non-empty list of
orders, each of which has remaining quantity > 0 — level hygiene: a level
exists exactly while it holds live orders, so an empty level is never
visible. -/
theorem spec_c6_level_hygiene (l : List (ℕ × Order)) (hl : ∀ x ∈ l, validOrder x.2)
    (d : Dict)
    (hd : d = (processAll initBook l).bids ∨ d = (processAll initBook l).offers) :
    ∀ pl ∈ d, pl.2 ≠ [] ∧ ∀ o ∈ pl.2, 0 < o.quantity := by
  have hinv := bookInv_processAll bookInv_initBook hl
  rcases hd with rfl | rfl
  · exact fun pl hpl => ⟨hinv.bidsInv.nonnil pl hpl, hinv.bidsInv.pos pl hpl⟩
  · exact fun pl hpl => ⟨hinv.offersInv.nonnil pl hpl, hinv.offersInv.pos pl hpl⟩

theorem spec_c6_level_hygiene_witness :
    (∀ x ∈ [((0 : ℕ), { type := OType.BUY, price := 12, quantity := 10 : Order }),
            ((1 : ℕ), { type := OType.SELL, price := 12, quantity := 4 : Order })],
        validOrder x.2) ∧
    (∀ pl ∈ (processAll initBook
        [((0 : ℕ), { type := OType.BUY, price := 12, quantity := 10 : Order }),
         ((1 : ℕ), { type := OType.SELL, price := 12, quantity := 4 : Order })]).bids,
      pl.2 ≠ [] ∧ ∀ o ∈ pl.2, 0 < o.quantity) :=
  ⟨by decide,
   spec_c6_level_hygiene _ (by decide) _ (Or.inl rfl)⟩

/-- C2: price-time priority.  In any book reached by valid orders, the
orders of each price level are sorted by strictly increasing book-assigned
order id (arrival order, since ids are assigned in arrival order); the
matching routine walks a level in list order, so a resting order is
decremented only when every earlier (smaller-id) order of the level ends
the walk fully filled; and the compaction step preserves the relative
order of the surviving orders (it yields a sublist). -/
theorem spec_c2_price_time_priority (l : List (ℕ × Order))
    (hl : ∀ x ∈ l, validOrder x.2) (d : Dict)
    (hd : d = (processAll initBook l).bids ∨ d = (processAll initBook l).offers)
    (p : ℚ) (lvl : List Order) (hmem : (p, lvl) ∈ d) (i j : ℕ) (hij : i < j)
    (hj : j < lvl.length) (incoming : Order) :
    oid (lvl.getD i defaultOrder) < oid (lvl.getD j defaultOrder) ∧
    (((match_orders incoming lvl).2.1.getD j defaultOrder).quantity <
        (lvl.getD j defaultOrder).quantity →
      ((match_orders incoming lvl).2.1.getD i defaultOrder).quantity = 0) ∧
    List.Sublist ((match_orders incoming lvl).2.1.filter (fun o => 0 < o.quantity))
      ((match_orders incoming lvl).2.1) := by
  have hinv := bookInv_processAll bookInv_initBook hl
  have hsorted : lvl.Pairwise (fun a b => oid a < oid b) := by
    rcases hd with rfl | rfl
    · exact hinv.bidsInv.idSorted (p, lvl) hmem
    · exact hinv.offersInv.idSorted (p, lvl) hmem
  have hi : i < lvl.length := lt_trans hij hj
  refine ⟨?_, match_orders_priority i j hij hj, List.filter_sublist _⟩
  have hpg := List.pairwise_iff_get.1 hsorted ⟨i, hi⟩ ⟨j, hj⟩ hij
  rw [List.getD_eq_getElem lvl defaultOrder hi, List.getD_eq_getElem lvl defaultOrder hj]
  simpa using hpg

theorem spec_c2_price_time_priority_witness :
    (∀ x ∈ [((0 : ℕ), { type := OType.BUY, price := 12, quantity := 10 : Order }),
            ((1 : ℕ), { type := OType.BUY, price := 12, quantity := 5 : Order })],
        validOrder x.2) ∧
    ((12 : ℚ), [{ type := OType.BUY, price := 12, quantity := 10,
                  timestamp := some 0, order_id := some 1 : Order },
                { type := OType.BUY, price := 12, quantity := 5,
                  timestamp := some 1, order_id := some 2 : Order }])
      ∈ (processAll initBook
          [((0 : ℕ), { type := OType.BUY, price := 12, quantity := 10 : Order }),
           ((1 : ℕ), { type := OType.BUY, price := 12, quantity := 5 : Order })]).bids ∧
    (oid ([{ type := OType.BUY, price := 12, quantity := 10,
             timestamp := some 0, order_id := some 1 : Order },
           { type := OType.BUY, price := 12, quantity := 5,
             timestamp := some 1, order_id := some 2 : Order }].getD 0 defaultOrder)
      < oid ([{ type := OType.BUY, price := 12, quantity := 10,
                timestamp := some 0, order_id := some 1 : Order },
              { type := OType.BUY, price := 12, quantity := 5,
                timestamp := some 1, order_id := some 2 : Order }].getD 1 defaultOrder)) :=
  ⟨by decide, by decide,
   (spec_c2_price_time_priority
      [((0 : ℕ), { type := OType.BUY, price := 12, quantity := 10 : Order }),
       ((1 : ℕ), { type := OType.BUY, price := 12, quantity := 5 : Order })] (by decide)
      ((processAll initBook
          [((0 : ℕ), { type := OType.BUY, price := 12, quantity := 10 : Order }),
           ((1 : ℕ), { type := OType.BUY, price := 12, quantity := 5 : Order })]).bids)
      (Or.inl rfl) 12
      [{ type := OType.BUY, price := 12, quantity := 10,
         timestamp := some 0, order_id := some 1 : Order },
       { type := OType.BUY, price := 12, quantity := 5,
         timestamp := some 1, order_id := some 2 : Order }]
      (by decide) 0 1 (by decide) (by decide)
      { type := OType.SELL, price := 12, quantity := 12 }).1⟩

/-- C3: for each match step the executed quantity is
`min(incoming remaining, resting remaining)`, both quantities are
decremented by exactly that amount (the `max 0` clamp never cuts for
non-negative inputs, so nothing goes below 0), and across a whole
`process_order` call on a reachable book the incoming order's original
quantity equals its final remaining quantity plus the sum of the emitted
trade quantities. -/
theorem spec_c3_quantity_conservation (l : List (ℕ × Order)) (now : ℕ)
    (o incoming book_order : Order) (hl : ∀ x ∈ l, validOrder x.2) (ho : validOrder o)
    (hinc : 0 ≤ incoming.quantity) (hbo : 0 ≤ book_order.quantity) :
    (execute_match incoming book_order).quantity
        = min incoming.quantity book_order.quantity ∧
    max 0 (incoming.quantity - (execute_match incoming book_order).quantity)
        = incoming.quantity - (execute_match incoming book_order).quantity ∧
    max 0 (book_order.quantity - (execute_match incoming book_order).quantity)
        = book_order.quantity - (execute_match incoming book_order).quantity ∧
    o.quantity = remainingAfter (processAll initBook l) now o +
      ((emittedTrades (processAll initBook l) now o).map Trade.quantity).sum := by
  refine ⟨rfl, ?_, ?_, ?_⟩
  · refine max_eq_right ?_
    have h1 := min_le_left incoming.quantity book_order.quantity
    show (0:ℤ) ≤ incoming.quantity - min incoming.quantity book_order.quantity
    linarith
  · refine max_eq_right ?_
    have h1 := min_le_right incoming.quantity book_order.quantity
    show (0:ℤ) ≤ book_order.quantity - min incoming.quantity book_order.quantity
    linarith
  · exact conservation_process_order (bookInv_processAll bookInv_initBook hl) ho now

theorem spec_c3_quantity_conservation_witness :
    ((∀ x ∈ [((0 : ℕ), { type := OType.SELL, price := 10, quantity := 5 : Order })],
        validOrder x.2) ∧
      validOrder { type := OType.BUY, price := 12, quantity := 8 : Order } ∧
      (0:ℤ) ≤ ({ type := OType.BUY, price := 11, quantity := 7 : Order } : Order).quantity ∧
      (0:ℤ) ≤ ({ type := OType.SELL, price := 11, quantity := 3 : Order } : Order).quantity) ∧
    ({ type := OType.BUY, price := 12, quantity := 8 : Order } : Order).quantity
      = remainingAfter (processAll initBook
          [((0 : ℕ), { type := OType.SELL, price := 10, quantity := 5 : Order })]) 7
          { type := OType.BUY, price := 12, quantity := 8 } +
        ((emittedTrades (processAll initBook
          [((0 : ℕ), { type := OType.SELL, price := 10, quantity := 5 : Order })]) 7
          { type := OType.BUY, price := 12, quantity := 8 }).map Trade.quantity).sum :=
  ⟨⟨by decide, by decide, by decide, by decide⟩,
   (spec_c3_quantity_conservation
      [((0 : ℕ), { type := OType.SELL, price := 10, quantity := 5 : Order })] 7
      { type := OType.BUY, price := 12, quantity := 8 }
      { type := OType.BUY, price := 11, quantity := 7 }
      { type := OType.SELL, price := 11, quantity := 3 }
      (by decide) (by decide) (by decide) (by decide)).2.2.2⟩

/-- C5: every trade emitted by a `process_order` call on a reachable book
carries the incoming (aggressor) order's side, the aggressor's freshly
assigned order id, a strictly positive executed quantity, and the price
and order id of a resting order of the opposite side of the pre-call book
(the execution price is the resting order's limit price, not the incoming
order's). -/
theorem spec_c5_trade_fields (l : List (ℕ × Order)) (now : ℕ) (o : Order)
    (hl : ∀ x ∈ l, validOrder x.2) (ho : validOrder o) :
    ∀ t ∈ emittedTrades (processAll initBook l) now o,
      t.type = o.type ∧
      t.incoming_order_id = some ((processAll initBook l).order_id + 1) ∧
      0 < t.quantity ∧
      ∃ p lvl bo, getLevel (oppSide (processAll initBook l) o.type) p = some lvl ∧
        bo ∈ lvl ∧ t.price = bo.price ∧ t.book_order_id = bo.order_id := by
  have hinv := bookInv_processAll bookInv_initBook hl
  by_cases ht : o.type = OType.BUY
  · by_cases hc : min_offer (processAll initBook l) ≤ (o.price : WithTop ℚ)
        ∧ (processAll initBook l).offers ≠ []
    · rw [emittedTrades_buy_market ht hc]
      intro t htmem
      have hres := match_prices_trades
        (le_of_lt (show (0:ℤ) < (stamp (processAll initBook l) now o).quantity from ho.2))
        hinv.offersInv.nodup hinv.offersInv.pos t htmem
      refine ⟨hres.1, hres.2.1, hres.2.2.1, ?_⟩
      obtain ⟨p, lvl, bo, hg, hbo, h1, h2⟩ := hres.2.2.2
      refine ⟨p, lvl, bo, ?_, hbo, h1, h2⟩
      simpa [oppSide, ht] using hg
    · rw [emittedTrades_buy_rest ht hc]
      intro t htmem
      simp at htmem
  · by_cases hc : o.price ≤ max_bid (processAll initBook l)
        ∧ (processAll initBook l).bids ≠ []
    · rw [emittedTrades_sell_market ht hc]
      intro t htmem
      have hres := match_prices_trades
        (le_of_lt (show (0:ℤ) < (stamp (processAll initBook l) now o).quantity from ho.2))
        hinv.bidsInv.nodup hinv.bidsInv.pos t htmem
      refine ⟨hres.1, hres.2.1, hres.2.2.1, ?_⟩
      obtain ⟨p, lvl, bo, hg, hbo, h1, h2⟩ := hres.2.2.2
      refine ⟨p, lvl, bo, ?_, hbo, h1, h2⟩
      simpa [oppSide, ht] using hg
    · rw [emittedTrades_sell_rest ht hc]
      intro t htmem
      simp at htmem

theorem spec_c5_trade_fields_witness :
    ((∀ x ∈ [((0 : ℕ), { type := OType.SELL, price := 10, quantity := 5 : Order })],
        validOrder x.2) ∧
      validOrder { type := OType.BUY, price := 12, quantity := 3 : Order }) ∧
    (∀ t ∈ emittedTrades (processAll initBook
        [((0 : ℕ), { type := OType.SELL, price := 10, quantity := 5 : Order })]) 9
        { type := OType.BUY, price := 12, quantity := 3 },
      t.type = ({ type := OType.BUY, price := 12, quantity := 3 : Order } : Order).type ∧
      t.incoming_order_id = some ((processAll initBook
        [((0 : ℕ), { type := OType.SELL, price := 10, quantity := 5 : Order })]).order_id
          + 1) ∧
      0 < t.quantity ∧
      ∃ p lvl bo, getLevel (oppSide (processAll initBook
          [((0 : ℕ), { type := OType.SELL, price := 10, quantity := 5 : Order })])
          ({ type := OType.BUY, price := 12, quantity := 3 : Order } : Order).type) p
            = some lvl ∧
        bo ∈ lvl ∧ t.price = bo.price ∧ t.book_order_id = bo.order_id) :=
  ⟨⟨by decide, by decide⟩,
   spec_c5_trade_fields _ 9 _ (by decide) (by decide)⟩

instance marketableDecidable (b : OrderBook) (o : Order) : Decidable (marketable b o) := by
  unfold marketable
  infer_instance

/-- C4: routing.  `process_order` hands the stamped incoming order to the
matching routine iff it is marketable (BUY: offer side non-empty and price
at least the minimum offer price; SELL: bid side non-empty and price at
most the maximum bid price); otherwise it appends the stamped order to the
tail of its own side's level at its limit price, creating the level if
absent, and leaves all other levels, the opposite side and the trades
queue unchanged. -/
theorem spec_c4_routing (b : OrderBook) (now : ℕ) (o : Order) :
    (marketable b o →
      process_order b now o
        = process_match { b with order_id := b.order_id + 1 } (stamp b now o)) ∧
    (¬marketable b o →
      getLevel (sameSide (process_order b now o) o.type) o.price
          = some ((getLevel (sameSide b o.type) o.price).getD [] ++ [stamp b now o]) ∧
      (∀ q, q ≠ o.price →
        getLevel (sameSide (process_order b now o) o.type) q
          = getLevel (sameSide b o.type) q) ∧
      oppSide (process_order b now o) o.type = oppSide b o.type ∧
      (process_order b now o).trades = b.trades ∧
      (process_order b now o).order_id = b.order_id + 1) := by
  by_cases ht : o.type = OType.BUY
  · constructor
    · intro hm
      have hc := (marketable_iff_buy ht).1 hm
      rw [process_order_eq, if_pos ht, if_pos hc]
    · intro hm
      have hc : ¬(min_offer b ≤ (o.price : WithTop ℚ) ∧ b.offers ≠ []) :=
        fun hcc => hm ((marketable_iff_buy ht).2 hcc)
      rw [process_order_eq, if_pos ht, if_neg hc]
      refine ⟨?_, ?_, ?_, rfl, rfl⟩
      · simp only [sameSide, if_pos ht]
        exact getLevel_dictAppend_self
      · intro q hq
        simp only [sameSide, if_pos ht]
        exact getLevel_dictAppend_ne hq
      · simp [oppSide, ht]
  · constructor
    · intro hm
      have hc := (marketable_iff_sell ht).1 hm
      rw [process_order_eq, if_neg ht, if_pos hc]
    · intro hm
      have hc : ¬(o.price ≤ max_bid b ∧ b.bids ≠ []) :=
        fun hcc => hm ((marketable_iff_sell ht).2 hcc)
      rw [process_order_eq, if_neg ht, if_neg hc]
      refine ⟨?_, ?_, ?_, rfl, rfl⟩
      · simp only [sameSide, if_neg ht]
        exact getLevel_dictAppend_self
      · intro q hq
        simp only [sameSide, if_neg ht]
        exact getLevel_dictAppend_ne hq
      · simp [oppSide, ht]

theorem spec_c4_routing_witness :
    (marketable (processAll initBook
        [((0 : ℕ), { type := OType.SELL, price := 10, quantity := 5 : Order })])
        { type := OType.BUY, price := 12, quantity := 3 } ∧
      process_order (processAll initBook
          [((0 : ℕ), { type := OType.SELL, price := 10, quantity := 5 : Order })]) 5
          { type := OType.BUY, price := 12, quantity := 3 }
        = process_match
          { (processAll initBook
              [((0 : ℕ), { type := OType.SELL, price := 10, quantity := 5 : Order })]) with
            order_id := (processAll initBook
              [((0 : ℕ), { type := OType.SELL, price := 10, quantity := 5 : Order })]).order_id
                + 1 }
          (stamp (processAll initBook
              [((0 : ℕ), { type := OType.SELL, price := 10, quantity := 5 : Order })]) 5
            { type := OType.BUY, price := 12, quantity := 3 })) ∧
    (¬marketable (processAll initBook
        [((0 : ℕ), { type := OType.SELL, price := 10, quantity := 5 : Order })])
        { type := OType.BUY, price := 9, quantity := 3 } ∧
      getLevel (sameSide (process_order (processAll initBook
          [((0 : ℕ), { type := OType.SELL, price := 10, quantity := 5 : Order })]) 6
          { type := OType.BUY, price := 9, quantity := 3 })
          ({ type := OType.BUY, price := 9, quantity := 3 : Order } : Order).type) 9
        = some ((getLevel (sameSide (processAll initBook
            [((0 : ℕ), { type := OType.SELL, price := 10, quantity := 5 : Order })])
            ({ type := OType.BUY, price := 9, quantity := 3 : Order } : Order).type) 9).getD []
          ++ [stamp (processAll initBook
              [((0 : ℕ), { type := OType.SELL, price := 10, quantity := 5 : Order })]) 6
              { type := OType.BUY, price := 9, quantity := 3 }])) :=
  ⟨⟨by decide,
    (spec_c4_routing (processAll initBook
        [((0 : ℕ), { type := OType.SELL, price := 10, quantity := 5 : Order })]) 5
        { type := OType.BUY, price := 12, quantity := 3 }).1 (by decide)⟩,
   ⟨by decide,
    ((spec_c4_routing (processAll initBook
        [((0 : ℕ), { type := OType.SELL, price := 10, quantity := 5 : Order })]) 6
        { type := OType.BUY, price := 9, quantity := 3 }).2 (by decide)).1⟩⟩

/-- C7: for a marketable incoming order, when the matching walk ends with
positive remaining quantity, the partially filled order is appended to the
tail of its own side's level at its own limit price (the level being
created if absent) while the opposite side is exactly the walk's output;
when the walk ends with remaining quantity 0 (or below), the incoming
order is inserted nowhere: its own side index is left unchanged. -/
theorem spec_c7_remainder (b : OrderBook) (now : ℕ) (o : Order) (hm : marketable b o) :
    (0 < remainingAfter b now o →
      getLevel (sameSide (process_order b now o) o.type) o.price
          = some ((getLevel (sameSide b o.type) o.price).getD []
              ++ [(process_match_core { b with order_id := b.order_id + 1 }
                    (stamp b now o)).1]) ∧
      (∀ q, q ≠ o.price →
        getLevel (sameSide (process_order b now o) o.type) q
          = getLevel (sameSide b o.type) q) ∧
      oppSide (process_order b now o) o.type
          = (process_match_core { b with order_id := b.order_id + 1 }
              (stamp b now o)).2.1) ∧
    (remainingAfter b now o ≤ 0 →
      sameSide (process_order b now o) o.type = sameSide b o.type ∧
      oppSide (process_order b now o) o.type
          = (process_match_core { b with order_id := b.order_id + 1 }
              (stamp b now o)).2.1) := by
  by_cases ht : o.type = OType.BUY
  · have ht' : (stamp b now o).type = OType.BUY := ht
    have hc := (marketable_iff_buy ht).1 hm
    have hcore : process_match_core { b with order_id := b.order_id + 1 } (stamp b now o)
        = match_prices (stamp b now o) b.offers (sortAsc (keys b.offers)) :=
      process_match_core_buy ht'
    have hre := @remainingAfter_buy_market b now o ht hc
    have hprice : (match_prices (stamp b now o) b.offers (sortAsc (keys b.offers))).1.price
        = o.price := (match_prices_fst_fields _ _ _).1
    constructor
    · intro hpos
      rw [hre] at hpos
      rw [process_order_buy_market_rest ht hc hpos, hcore, hprice]
      refine ⟨?_, ?_, ?_⟩
      · simp only [sameSide, if_pos ht]
        exact getLevel_dictAppend_self
      · intro q hq
        simp only [sameSide, if_pos ht]
        exact getLevel_dictAppend_ne hq
      · simp [oppSide, ht]
    · intro hnonpos
      rw [hre] at hnonpos
      rw [process_order_buy_market_fill ht hc (not_lt.2 hnonpos), hcore]
      constructor
      · simp [sameSide, ht]
      · simp [oppSide, ht]
  · have hts : (stamp b now o).type = OType.SELL := by
      cases hty : o.type
      · exact absurd hty ht
      · exact hty
    have hc := (marketable_iff_sell ht).1 hm
    have hcore : process_match_core { b with order_id := b.order_id + 1 } (stamp b now o)
        = match_prices (stamp b now o) b.bids (sortDesc (keys b.bids)) :=
      process_match_core_sell hts
    have hre := @remainingAfter_sell_market b now o ht hc
    have hprice : (match_prices (stamp b now o) b.bids (sortDesc (keys b.bids))).1.price
        = o.price := (match_prices_fst_fields _ _ _).1
    constructor
    · intro hpos
      rw [hre] at hpos
      rw [process_order_sell_market_rest ht hc hpos, hcore, hprice]
      refine ⟨?_, ?_, ?_⟩
      · simp only [sameSide, if_neg ht]
        exact getLevel_dictAppend_self
      · intro q hq
        simp only [sameSide, if_neg ht]
        exact getLevel_dictAppend_ne hq
      · simp [oppSide, ht]
    · intro hnonpos
      rw [hre] at hnonpos
      rw [process_order_sell_market_fill ht hc (not_lt.2 hnonpos), hcore]
      constructor
      · simp [sameSide, ht]
      · simp [oppSide, ht]

theorem spec_c7_remainder_witness :
    (marketable (processAll initBook
        [((0 : ℕ), { type := OType.SELL, price := 10, quantity := 5 : Order })])
        { type := OType.BUY, price := 12, quantity := 8 } ∧
      0 < remainingAfter (processAll initBook
        [((0 : ℕ), { type := OType.SELL, price := 10, quantity := 5 : Order })]) 3
        { type := OType.BUY, price := 12, quantity := 8 }) ∧
    getLevel (sameSide (process_order (processAll initBook
        [((0 : ℕ), { type := OType.SELL, price := 10, quantity := 5 : Order })]) 3
        { type := OType.BUY, price := 12, quantity := 8 })
        ({ type := OType.BUY, price := 12, quantity := 8 : Order } : Order).type) 12
      = some ((getLevel (sameSide (processAll initBook
          [((0 : ℕ), { type := OType.SELL, price := 10, quantity := 5 : Order })])
          ({ type := OType.BUY, price := 12, quantity := 8 : Order } : Order).type) 12).getD []
        ++ [(process_match_core
              { (processAll initBook
                  [((0 : ℕ), { type := OType.SELL, price := 10, quantity := 5 : Order })]) with
                order_id := (processAll initBook
                  [((0 : ℕ),
                    { type := OType.SELL, price := 10, quantity := 5 : Order })]).order_id
                    + 1 }
              (stamp (processAll initBook
                  [((0 : ℕ), { type := OType.SELL, price := 10, quantity := 5 : Order })]) 3
                { type := OType.BUY, price := 12, quantity := 8 })).1]) :=
  ⟨⟨by decide, by decide⟩,
   ((spec_c7_remainder (processAll initBook
        [((0 : ℕ), { type := OType.SELL, price := 10, quantity := 5 : Order })]) 3
        { type := OType.BUY, price := 12, quantity := 8 } (by decide)).1 (by decide)).1⟩

/-- C9 (amended): a `process_order` call leaves at least one side index
unchanged, except when the incoming order is marketable and its matching
walk ends with positive remaining quantity — then the opposite side is
mutated by matching and the own side by the remainder insertion, so both
may differ. -/
theorem spec_c9_frame_amended (b : OrderBook) (now : ℕ) (o : Order) :
    (process_order b now o).bids = b.bids ∨
    (process_order b now o).offers = b.offers ∨
    (marketable b o ∧ 0 < remainingAfter b now o) := by
  by_cases ht : o.type = OType.BUY
  · by_cases hc : min_offer b ≤ (o.price : WithTop ℚ) ∧ b.offers ≠ []
    · by_cases hrq :
        0 < (match_prices (stamp b now o) b.offers (sortAsc (keys b.offers))).1.quantity
      · right
        right
        refine ⟨(marketable_iff_buy ht).2 hc, ?_⟩
        rw [remainingAfter_buy_market ht hc]
        exact hrq
      · left
        rw [process_order_buy_market_fill ht hc hrq]
    · right
      left
      rw [process_order_eq, if_pos ht, if_neg hc]
  · by_cases hc : o.price ≤ max_bid b ∧ b.bids ≠ []
    · by_cases hrq :
        0 < (match_prices (stamp b now o) b.bids (sortDesc (keys b.bids))).1.quantity
      · right
        right
        refine ⟨(marketable_iff_sell ht).2 hc, ?_⟩
        rw [remainingAfter_sell_market ht hc]
        exact hrq
      · right
        left
        rw [process_order_sell_market_fill ht hc hrq]
    · left
      rw [process_order_eq, if_neg ht, if_neg hc]

/-- C9 counterexample: the claim "at most one of the two side indices
differs after any `process_order` call" is false.  A resting BUY 5@10 hit
by an incoming SELL 10@10 empties the bid level (bids change) and rests
the 5-unit remainder as a new offer level (offers change). -/
theorem spec_c9_counterexample :
    ¬((process_order (processAll initBook
          [((0 : ℕ), { type := OType.BUY, price := 10, quantity := 5 : Order })]) 1
          { type := OType.SELL, price := 10, quantity := 10 }).bids
        = (processAll initBook
            [((0 : ℕ), { type := OType.BUY, price := 10, quantity := 5 : Order })]).bids ∨
      (process_order (processAll initBook
          [((0 : ℕ), { type := OType.BUY, price := 10, quantity := 5 : Order })]) 1
          { type := OType.SELL, price := 10, quantity := 10 }).offers
        = (processAll initBook
            [((0 : ℕ), { type := OType.BUY, price := 10, quantity := 5 : Order })]).offers)
    := by decide

/-- C10: an incoming order with quantity 0 whose limit price crosses the
opposite side's best price is routed to the matching routine, which emits
no trades; both side indices and the trades queue are left unchanged, the
order is inserted nowhere and no error is raised — yet the call still
consumes a fresh order id. -/
theorem spec_c10_zero_quantity (b : OrderBook) (now : ℕ) (o : Order)
    (hq : o.quantity = 0) (hm : marketable b o) :
    (process_order b now o).bids = b.bids ∧
    (process_order b now o).offers = b.offers ∧
    (process_order b now o).trades = b.trades ∧
    (process_order b now o).order_id = b.order_id + 1 := by
  have hq' : (stamp b now o).quantity = 0 := hq
  by_cases ht : o.type = OType.BUY
  · have hc := (marketable_iff_buy ht).1 hm
    have hz := match_prices_zero b.offers (sortAsc (keys b.offers)) hq'
    have hrq :
        ¬0 < (match_prices (stamp b now o) b.offers (sortAsc (keys b.offers))).1.quantity := by
      rw [hz]
      simp [hq']
    rw [process_order_buy_market_fill ht hc hrq]
    refine ⟨rfl, ?_, ?_, rfl⟩
    · rw [hz]
    · rw [hz]
      simp
  · have hc := (marketable_iff_sell ht).1 hm
    have hz := match_prices_zero b.bids (sortDesc (keys b.bids)) hq'
    have hrq :
        ¬0 < (match_prices (stamp b now o) b.bids (sortDesc (keys b.bids))).1.quantity := by
      rw [hz]
      simp [hq']
    rw [process_order_sell_market_fill ht hc hrq]
    refine ⟨?_, rfl, ?_, rfl⟩
    · rw [hz]
    · rw [hz]
      simp

theorem spec_c10_zero_quantity_witness :
    (({ type := OType.BUY, price := 12, quantity := 0 : Order } : Order).quantity = 0 ∧
      marketable (processAll initBook
        [((0 : ℕ), { type := OType.SELL, price := 10, quantity := 5 : Order })])
        { type := OType.BUY, price := 12, quantity := 0 }) ∧
    (process_order (processAll initBook
        [((0 : ℕ), { type := OType.SELL, price := 10, quantity := 5 : Order })]) 4
        { type := OType.BUY, price := 12, quantity := 0 }).bids
      = (processAll initBook
          [((0 : ℕ), { type := OType.SELL, price := 10, quantity := 5 : Order })]).bids ∧
    (process_order (processAll initBook
        [((0 : ℕ), { type := OType.SELL, price := 10, quantity := 5 : Order })]) 4
        { type := OType.BUY, price := 12, quantity := 0 }).offers
      = (processAll initBook
          [((0 : ℕ), { type := OType.SELL, price := 10, quantity := 5 : Order })]).offers ∧
    (process_order (processAll initBook
        [((0 : ℕ), { type := OType.SELL, price := 10, quantity := 5 : Order })]) 4
        { type := OType.BUY, price := 12, quantity := 0 }).trades
      = (processAll initBook
          [((0 : ℕ), { type := OType.SELL, price := 10, quantity := 5 : Order })]).trades ∧
    (process_order (processAll initBook
        [((0 : ℕ), { type := OType.SELL, price := 10, quantity := 5 : Order })]) 4
        { type := OType.BUY, price := 12, quantity := 0 }).order_id
      = (processAll initBook
          [((0 : ℕ), { type := OType.SELL, price := 10, quantity := 5 : Order })]).order_id
        + 1 :=
  ⟨⟨by decide, by decide⟩,
   spec_c10_zero_quantity (processAll initBook
      [((0 : ℕ), { type := OType.SELL, price := 10, quantity := 5 : Order })]) 4
      { type := OType.BUY, price := 12, quantity := 0 } (by decide) (by decide)⟩

/-- C8: the code performs no input validation.  `process_order` has no
error path at all (it is a total function that never rejects): submitted
with the invalid input `Order(BUY, price = -1, quantity = 5)` on an empty
book, the order is silently accepted and rested at price -1 instead of
being rejected with a typed error. -/
theorem spec_c8_no_validation :
    (process_order initBook 0 { type := OType.BUY, price := -1, quantity := 5 }).bids
      = [(-1, [{ type := OType.BUY, price := -1, quantity := 5,
                 timestamp := some 0, order_id := some 1 }])] ∧
    (process_order initBook 0 { type := OType.BUY, price := -1, quantity := 5 }).trades
      = [] := by decide
